import Mathlib

/-!
Shallow embedding of the Eiffel in-process key-value store
(src/key.rs and src/storage.rs).

Time is modelled by explicit `Nat` instants: every operation that calls
`Instant::now()` in the source (`setex`, `setnx`, `purge_expired_keys`)
takes the current instant as an extra argument.  Durations are `Nat`s and
`Instant::now() + duration` becomes `now + duration`.

The `IndexMap<Key, Entry>` value table is embedded as an association list
`List (Key × Entry)` in insertion order: `insert` replaces in place (the
key keeps its position) or appends, `remove` is indexmap's swap-remove
(the last pair moves into the removed pair's slot), `get_index` is
positional lookup.  The `BTreeMap<(Instant, u64), Key>` expiration index
is embedded as a list of records kept sorted by strict lexicographic
order on the `(instant, id)` key; `iter().next()` is the head of that
list, and removing the head key of a sorted, duplicate-free list yields
its tail, which is how the purge loop is written below.

Rust `i64` arithmetic in the counter operations is embedded as `Int`
arithmetic reduced by `wrap64` (two's-complement wrapping modulo 2^64,
the release-profile semantics of `+`/`-` on `i64`).

Locking, the `Notify` wake-up signal and the spawned reaper task are
concurrency plumbing with no effect on the guarded state itself; the
embedding exposes the state transition of each critical section, which is
exactly what a caller observes when the lock is not held.
-/

namespace Eiffel

/-- Key (src/key.rs): tagged union over the supported key representations.
The `Uuid` and `ObjectId` payloads are opaque to the store (only equality
and hashing are used), so they are modelled as numerals. -/
inductive Key where
  | uint32 (n : Nat)
  | uint64 (n : Nat)
  | str (s : String)
  | uuid (n : Nat)
  | objectId (n : Nat)
  deriving DecidableEq, Repr

/-- Bson value handle (the `bson` crate's `Bson`, stored behind an `Arc`).
The store uses exactly two capabilities of the value type: building
`Bson::Int64` values and the `as_i64` view, which succeeds exactly on the
`Int64` variant.  Every other Bson variant is collapsed into the opaque
`other` constructor. -/
inductive Bson where
  | int64 (i : Int)
  | other (s : String)
  deriving DecidableEq, Repr

/-- Bson::as_i64 (bson crate): `Some` exactly on the `Int64` variant. -/
def Bson.as_i64 : Bson → Option Int
  | .int64 i => some i
  | .other _ => none

/-- Modelled from the spec: `crate::error::EiffelError` (error.rs) is not
under src/; per the spec Section 7 there is exactly one distinguished error
kind, "wrong type", raised only by the four counter operations when the
current value cannot be viewed as a 64-bit signed integer. -/
inductive EiffelError where
  | WrongType
  deriving DecidableEq, Repr

/-- Entry (src/storage.rs): one stored record. -/
structure Entry where
  id : Nat
  data : Bson
  expires_at : Option Nat
  deriving DecidableEq, Repr

/-- State (src/storage.rs): the guarded mutable region.  `entries` is the
insertion-ordered `IndexMap`, `expirations` the `BTreeMap` expiration
index kept sorted by its `(instant, id)` key. -/
structure State where
  entries : List (Key × Entry)
  expirations : List ((Nat × Nat) × Key)
  next_id : Nat
  shutdown : Bool
  deriving DecidableEq, Repr

/-- Two's-complement wrapping of an integer into the `i64` range, the
release-profile semantics of Rust's `+` and `-` on `i64`. -/
def wrap64 (x : Int) : Int := (x + 2 ^ 63) % 2 ^ 64 - 2 ^ 63

/-! ### IndexMap primitives -/

/-- IndexMap lookup (`entries.get(key)`): first pair with the key. -/
def imGet (l : List (Key × Entry)) (k : Key) : Option Entry :=
  match l with
  | [] => none
  | p :: rest => if p.1 = k then some p.2 else imGet rest k

/-- IndexMap insert (`entries.insert(key, entry)`): an existing key keeps
its position and gets the new entry; a new key is appended at the end. -/
def imInsert (l : List (Key × Entry)) (k : Key) (e : Entry) : List (Key × Entry) :=
  match l with
  | [] => [(k, e)]
  | p :: rest => if p.1 = k then (k, e) :: rest else p :: imInsert rest k e

/-- Index of the first pair with the given key, if any. -/
def imFindIdx (l : List (Key × Entry)) (k : Key) : Option Nat :=
  match l with
  | [] => none
  | p :: rest => if p.1 = k then some 0 else (imFindIdx rest k).map (· + 1)

/-- Swap-removal at a position: the last pair moves into slot `i` and the
list shrinks by one.  This is indexmap's `swap_remove`, which is what
`IndexMap::remove` performs. -/
def imRemoveIdx (l : List (Key × Entry)) (i : Nat) : List (Key × Entry) :=
  match l, i with
  | [], _ => []
  | _ :: rest, 0 =>
    match rest.getLast? with
    | none => []
    | some last => last :: rest.dropLast
  | p :: rest, i + 1 => p :: imRemoveIdx rest i

/-- IndexMap removal by key (`entries.remove(key)`, i.e. swap-remove):
returns the shrunk list and the removed entry. -/
def imRemove (l : List (Key × Entry)) (k : Key) : List (Key × Entry) × Option Entry :=
  match imFindIdx l k with
  | none => (l, none)
  | some i => (imRemoveIdx l i, (imGet l k))

/-- In-place update of the data of the entry stored under `k`
(`entries.get_mut(key)` followed by `entry.data = ...`): position, id and
expiration are untouched. -/
def setData (l : List (Key × Entry)) (k : Key) (d : Bson) : List (Key × Entry) :=
  l.map (fun p => if p.1 = k then (p.1, ⟨p.2.id, d, p.2.expires_at⟩) else p)

/-! ### BTreeMap primitives -/

/-- Strict lexicographic order on `(instant, id)` record keys, the
`BTreeMap` ordering. -/
def pairLt (a b : Nat × Nat) : Prop := a.1 < b.1 ∨ (a.1 = b.1 ∧ a.2 < b.2)

instance (a b : Nat × Nat) : Decidable (pairLt a b) := by
  unfold pairLt; exact inferInstance

/-- The expiration-index representation invariant: records strictly
sorted by their `(instant, id)` key. -/
def BtSorted (m : List ((Nat × Nat) × Key)) : Prop :=
  m.Pairwise (fun a b => pairLt a.1 b.1)

/-- BTreeMap insert (`expirations.insert((when, id), key)`): ordered
insertion, replacing the record if the key is already present. -/
def btInsert (m : List ((Nat × Nat) × Key)) (w : Nat × Nat) (k : Key) :
    List ((Nat × Nat) × Key) :=
  match m with
  | [] => [(w, k)]
  | r :: rest =>
    if pairLt w r.1 then (w, k) :: r :: rest
    else if w = r.1 then (w, k) :: rest
    else r :: btInsert rest w k

/-- BTreeMap removal (`expirations.remove(&(when, id))`): drops the record
with the given key, if present. -/
def btRemove (m : List ((Nat × Nat) × Key)) (w : Nat × Nat) :
    List ((Nat × Nat) × Key) :=
  match m with
  | [] => []
  | r :: rest => if r.1 = w then rest else r :: btRemove rest w

/-- The stale-record cleanup shared by `set`, `setex`, `setnx`, `mset`,
`msetnx` and `del`: if the previous entry existed and carried a TTL,
remove its expiration-index record. -/
def removePrevRecord (m : List ((Nat × Nat) × Key)) :
    Option Entry → List ((Nat × Nat) × Key)
  | some p =>
    match p.expires_at with
    | some w => btRemove m (w, p.id)
    | none => m
  | none => m

/-! ### The store operations (src/storage.rs) -/

/-- The state built by `DataStore::new`. -/
def initialState : State :=
  { entries := [], expirations := [], next_id := 0, shutdown := false }

/-- DataStore::set: unconditional overwrite; allocates a fresh id, stores
no TTL, and removes the previous entry's expiration record if it had one. -/
def set (s : State) (key : Key) (value : Bson) : State :=
  { entries := imInsert s.entries key ⟨s.next_id, value, none⟩,
    expirations := removePrevRecord s.expirations (imGet s.entries key),
    next_id := s.next_id + 1,
    shutdown := s.shutdown }

/-- DataStore::get: plain table lookup, no expiration check. -/
def get (s : State) (key : Key) : Option Bson :=
  (imGet s.entries key).map (·.data)

/-- DataStore::getset: replaces the value, keeping the existing entry's id
and expiration when the key is present (no index bookkeeping at all);
allocates a fresh id with no TTL otherwise.  Returns the previous value. -/
def getset (s : State) (key : Key) (value : Bson) : State × Option Bson :=
  match imGet s.entries key with
  | some entry =>
    ({ s with entries := imInsert s.entries key ⟨entry.id, value, entry.expires_at⟩ },
      some entry.data)
  | none =>
    ({ s with
        entries := imInsert s.entries key ⟨s.next_id, value, none⟩,
        next_id := s.next_id + 1 },
      none)

/-- DataStore::mget: values of the keys that exist, in request order;
missing keys are skipped. -/
def mget (s : State) (keys : List Key) : List Bson :=
  keys.filterMap (fun k => (imGet s.entries k).map (·.data))

/-- DataStore::setex: overwrite with a fresh id and an optional absolute
expiration `now + duration`; a supplied TTL inserts the expiration-index
record, and the previous entry's record (if any) is removed.  The
`notify` flag only drives the reaper's `Notify` handle and does not touch
the guarded state, so it is not part of the transition. -/
def setex (s : State) (key : Key) (value : Bson) (expire : Option Nat) (now : Nat) :
    State :=
  let id := s.next_id
  let expires_at := expire.map (fun duration => now + duration)
  let exps0 :=
    match expires_at with
    | some w => btInsert s.expirations (w, id) key
    | none => s.expirations
  { entries := imInsert s.entries key ⟨id, value, expires_at⟩,
    expirations := removePrevRecord exps0 (imGet s.entries key),
    next_id := id + 1,
    shutdown := s.shutdown }

/-- DataStore::setnx: as `setex` but only when the key is absent; an
existing key aborts before any mutation (no id is consumed) and yields
`false`.  The body of the write path is identical to `setex`'s. -/
def setnx (s : State) (key : Key) (value : Bson) (expire : Option Nat) (now : Nat) :
    State × Bool :=
  if (imGet s.entries key).isSome then (s, false)
  else (setex s key value expire now, true)

/-- DataStore::mset: the `set` transition applied to every pair in
iteration order, all under one lock acquisition. -/
def mset (s : State) (kvs : List (Key × Bson)) : State :=
  kvs.foldl (fun st kv => set st kv.1 kv.2) s

/-- DataStore::msetnx: first pass checks that none of the keys exist and
aborts with `false` before any mutation otherwise; the write pass is
`mset`'s loop. -/
def msetnx (s : State) (kvs : List (Key × Bson)) : State × Bool :=
  if kvs.any (fun kv => (imGet s.entries kv.1).isSome) then (s, false)
  else (mset s kvs, true)

/-- DataStore::cursor: positional lookup (`entries.get_index`). -/
def cursor (s : State) (i : Nat) : Option Bson :=
  (s.entries.get? i).map (fun p => p.2.data)

/-- DataStore::incr: on an integer-viewable entry, stores and returns
`counter + 1` (wrapping); on a non-integer entry fails with `WrongType`;
on a missing key creates the entry with value `0`, a fresh id and no TTL,
and returns `0`. -/
def incr (s : State) (key : Key) : State × Except EiffelError Int :=
  match imGet s.entries key with
  | some entry =>
    match entry.data.as_i64 with
    | none => (s, .error .WrongType)
    | some counter =>
      let c := wrap64 (counter + 1)
      ({ s with entries := setData s.entries key (.int64 c) }, .ok c)
  | none =>
    ({ s with
        entries := imInsert s.entries key ⟨s.next_id, .int64 0, none⟩,
        next_id := s.next_id + 1 },
      .ok 0)

/-- DataStore::incr_by: as `incr` with a caller-chosen increment; a
missing key stores and returns the increment itself. -/
def incr_by (s : State) (key : Key) (increment : Int) : State × Except EiffelError Int :=
  match imGet s.entries key with
  | some entry =>
    match entry.data.as_i64 with
    | none => (s, .error .WrongType)
    | some counter =>
      let c := wrap64 (counter + increment)
      ({ s with entries := setData s.entries key (.int64 c) }, .ok c)
  | none =>
    ({ s with
        entries := imInsert s.entries key ⟨s.next_id, .int64 increment, none⟩,
        next_id := s.next_id + 1 },
      .ok increment)

/-- DataStore::decr: as `incr` with `counter - 1`; a missing key stores
`0` and returns `0`. -/
def decr (s : State) (key : Key) : State × Except EiffelError Int :=
  match imGet s.entries key with
  | some entry =>
    match entry.data.as_i64 with
    | none => (s, .error .WrongType)
    | some counter =>
      let c := wrap64 (counter - 1)
      ({ s with entries := setData s.entries key (.int64 c) }, .ok c)
  | none =>
    ({ s with
        entries := imInsert s.entries key ⟨s.next_id, .int64 0, none⟩,
        next_id := s.next_id + 1 },
      .ok 0)

/-- DataStore::decr_by: `counter - decrement` on an integer entry; a
missing key stores the positive `decrement` itself (not its negation)
and returns it. -/
def decr_by (s : State) (key : Key) (decrement : Int) : State × Except EiffelError Int :=
  match imGet s.entries key with
  | some entry =>
    match entry.data.as_i64 with
    | none => (s, .error .WrongType)
    | some counter =>
      let c := wrap64 (counter - decrement)
      ({ s with entries := setData s.entries key (.int64 c) }, .ok c)
  | none =>
    ({ s with
        entries := imInsert s.entries key ⟨s.next_id, .int64 decrement, none⟩,
        next_id := s.next_id + 1 },
      .ok decrement)

/-- DataStore::del: swap-removes the entry and, if it carried a TTL, its
expiration-index record. -/
def del (s : State) (key : Key) : State :=
  let r := imRemove s.entries key
  { s with entries := r.1, expirations := removePrevRecord s.expirations r.2 }

/-- DataStore::shutdown_purge_task (run by `DbDropGuard::drop`): sets the
shutdown flag; the accompanying `notify_one` only wakes the reaper. -/
def shutdown_purge_task (s : State) : State :=
  { s with shutdown := true }

/-- State::next_expiration: the smallest `(instant, id)` key's instant,
i.e. the head of the sorted record list. -/
def next_expiration (s : State) : Option Nat :=
  s.expirations.head?.map (fun r => r.1.1)

/-- The `while let` loop of Shared::purge_expired_keys.
`expirations.iter().next()` is the least record, the head of the sorted
list; removing that record's key from a sorted duplicate-free map leaves
the tail, so the loop is structural recursion on the record list.  A due
record removes its entry by key (swap-remove) and itself; the first
not-yet-due record's instant is returned as the next deadline. -/
def purgeLoop (entries : List (Key × Entry)) (exps : List ((Nat × Nat) × Key))
    (now : Nat) : List (Key × Entry) × List ((Nat × Nat) × Key) × Option Nat :=
  match exps with
  | [] => (entries, [], none)
  | r :: rest =>
    if now < r.1.1 then (entries, r :: rest, some r.1.1)
    else purgeLoop (imRemove entries r.2).1 rest now

/-- Shared::purge_expired_keys: a no-op returning `None` once shutdown is
set; otherwise one purge pass over the due prefix of the expiration
index at instant `now`. -/
def purge_expired_keys (s : State) (now : Nat) : State × Option Nat :=
  if s.shutdown then (s, none)
  else
    let r := purgeLoop s.entries s.expirations now
    ({ s with entries := r.1, expirations := r.2.1 }, r.2.2)

/-! ### Reachability -/

/-- The states observable when the lock is not held: the initial state of
`DataStore::new` closed under every mutating critical section. -/
inductive Reachable : State → Prop where
  | init : Reachable initialState
  | stepSet (s : State) (k : Key) (v : Bson) :
      Reachable s → Reachable (set s k v)
  | stepGetset (s : State) (k : Key) (v : Bson) :
      Reachable s → Reachable (getset s k v).1
  | stepSetex (s : State) (k : Key) (v : Bson) (expire : Option Nat) (now : Nat) :
      Reachable s → Reachable (setex s k v expire now)
  | stepSetnx (s : State) (k : Key) (v : Bson) (expire : Option Nat) (now : Nat) :
      Reachable s → Reachable (setnx s k v expire now).1
  | stepMset (s : State) (kvs : List (Key × Bson)) :
      Reachable s → Reachable (mset s kvs)
  | stepMsetnx (s : State) (kvs : List (Key × Bson)) :
      Reachable s → Reachable (msetnx s kvs).1
  | stepIncr (s : State) (k : Key) :
      Reachable s → Reachable (incr s k).1
  | stepIncrBy (s : State) (k : Key) (n : Int) :
      Reachable s → Reachable (incr_by s k n).1
  | stepDecr (s : State) (k : Key) :
      Reachable s → Reachable (decr s k).1
  | stepDecrBy (s : State) (k : Key) (n : Int) :
      Reachable s → Reachable (decr_by s k n).1
  | stepDel (s : State) (k : Key) :
      Reachable s → Reachable (del s k)
  | stepShutdown (s : State) :
      Reachable s → Reachable (shutdown_purge_task s)
  | stepPurge (s : State) (now : Nat) :
      Reachable s → Reachable (purge_expired_keys s now).1

/-! ### IndexMap lemmas -/

/-- The value table represents a map: its keys are pairwise distinct. -/
def NodupKeys (l : List (Key × Entry)) : Prop := (l.map Prod.fst).Nodup

theorem imGet_eq_none {l : List (Key × Entry)} {k : Key} :
    imGet l k = none ↔ k ∉ l.map Prod.fst := by
  induction l with
  | nil => simp [imGet]
  | cons p rest ih =>
    by_cases h : p.1 = k
    · simp [imGet, h]
    · simp only [imGet, if_neg h, List.map_cons, List.mem_cons, not_or, ih]
      constructor
      · exact fun hn => ⟨fun e => h e.symm, hn⟩
      · exact fun hp => hp.2

theorem imGet_mem {l : List (Key × Entry)} {k : Key} {e : Entry}
    (h : imGet l k = some e) : (k, e) ∈ l := by
  induction l with
  | nil => simp [imGet] at h
  | cons p rest ih =>
    by_cases hk : p.1 = k
    · simp only [imGet, if_pos hk] at h
      obtain rfl : p.2 = e := Option.some.inj h
      obtain ⟨pk, pe⟩ := p
      obtain rfl : pk = k := hk
      exact List.mem_cons_self _ _
    · simp only [imGet, if_neg hk] at h
      exact List.mem_cons_of_mem _ (ih h)

theorem mem_imGet {l : List (Key × Entry)} {k : Key} {e : Entry}
    (hnd : NodupKeys l) (h : (k, e) ∈ l) : imGet l k = some e := by
  induction l with
  | nil => simp at h
  | cons p rest ih =>
    rcases List.mem_cons.1 h with h1 | h1
    · obtain rfl : p = (k, e) := h1.symm
      simp [imGet]
    · have hk : p.1 ≠ k := by
        intro he
        have : k ∈ rest.map Prod.fst := List.mem_map_of_mem Prod.fst h1
        have := (List.nodup_cons.1 hnd).1
        exact this (he ▸ ‹k ∈ rest.map Prod.fst›)
      simp only [imGet, if_neg hk]
      exact ih (List.nodup_cons.1 hnd).2 h1

theorem imGet_imInsert_self {l : List (Key × Entry)} {k : Key} {e : Entry} :
    imGet (imInsert l k e) k = some e := by
  induction l with
  | nil => simp [imInsert, imGet]
  | cons p rest ih =>
    by_cases h : p.1 = k
    · simp [imInsert, imGet, h]
    · simp [imInsert, imGet, h, ih]

theorem imGet_imInsert_ne {l : List (Key × Entry)} {k k' : Key} {e : Entry}
    (h : k' ≠ k) : imGet (imInsert l k e) k' = imGet l k' := by
  have hne : ¬k = k' := fun he => h he.symm
  induction l with
  | nil => simp [imInsert, imGet, hne]
  | cons p rest ih =>
    by_cases hp : p.1 = k
    · simp [imInsert, imGet, hp, hne]
    · by_cases hq : p.1 = k'
      · simp [imInsert, imGet, hp, hq, h]
      · simp [imInsert, imGet, hp, hq, ih]

theorem keys_imInsert_of_mem {l : List (Key × Entry)} {k : Key} {e : Entry}
    (h : k ∈ l.map Prod.fst) : (imInsert l k e).map Prod.fst = l.map Prod.fst := by
  induction l with
  | nil => simp at h
  | cons p rest ih =>
    by_cases hp : p.1 = k
    · simp [imInsert, hp]
    · have : k ∈ rest.map Prod.fst := by
        rcases List.mem_cons.1 h with h1 | h1
        · exact absurd h1.symm hp
        · exact h1
      simp [imInsert, hp, ih this]

theorem keys_imInsert_of_not_mem {l : List (Key × Entry)} {k : Key} {e : Entry}
    (h : k ∉ l.map Prod.fst) :
    (imInsert l k e).map Prod.fst = l.map Prod.fst ++ [k] := by
  induction l with
  | nil => simp [imInsert]
  | cons p rest ih =>
    have hp : p.1 ≠ k := by
      intro he; exact h (by simp [he])
    have hrest : k ∉ rest.map Prod.fst := fun hm => h (by simp [hm])
    simp [imInsert, hp, ih hrest]

theorem nodup_imInsert {l : List (Key × Entry)} {k : Key} {e : Entry}
    (hnd : NodupKeys l) : NodupKeys (imInsert l k e) := by
  by_cases h : k ∈ l.map Prod.fst
  · unfold NodupKeys
    rw [keys_imInsert_of_mem h]
    exact hnd
  · unfold NodupKeys
    rw [keys_imInsert_of_not_mem h]
    simp only [List.nodup_append, List.nodup_cons, List.not_mem_nil, not_false_iff,
      List.nodup_nil, and_true, true_and]
    exact ⟨hnd, by simpa [List.disjoint_singleton] using h⟩

theorem mem_imInsert_elim {l : List (Key × Entry)} {k : Key} {e : Entry}
    {x : Key × Entry} (h : x ∈ imInsert l k e) : x = (k, e) ∨ x ∈ l := by
  induction l with
  | nil => simpa [imInsert] using h
  | cons p rest ih =>
    by_cases hp : p.1 = k
    · simp only [imInsert, if_pos hp, List.mem_cons] at h
      rcases h with h1 | h1
      · exact Or.inl h1
      · exact Or.inr (List.mem_cons_of_mem _ h1)
    · simp only [imInsert, if_neg hp, List.mem_cons] at h
      rcases h with h1 | h1
      · exact Or.inr (h1 ▸ List.mem_cons_self _ _)
      · rcases ih h1 with h2 | h2
        · exact Or.inl h2
        · exact Or.inr (List.mem_cons_of_mem _ h2)

theorem mem_imInsert_iff {l : List (Key × Entry)} {k : Key} {e : Entry}
    {x : Key × Entry} (hnd : NodupKeys l) :
    x ∈ imInsert l k e ↔ x = (k, e) ∨ (x ∈ l ∧ x.1 ≠ k) := by
  induction l with
  | nil => simp [imInsert]
  | cons p rest ih =>
    have hh := List.nodup_cons.1 hnd
    by_cases hp : p.1 = k
    · simp only [imInsert, if_pos hp, List.mem_cons]
      constructor
      · rintro (h1 | h1)
        · exact Or.inl h1
        · refine Or.inr ⟨Or.inr h1, ?_⟩
          intro he
          apply hh.1
          rw [hp, ← he]
          exact List.mem_map_of_mem Prod.fst h1
      · rintro (h1 | ⟨h1 | h1, h2⟩)
        · exact Or.inl h1
        · exact absurd (by rw [h1]; exact hp) h2
        · exact Or.inr h1
    · simp only [imInsert, if_neg hp, List.mem_cons]
      rw [ih hh.2]
      constructor
      · rintro (h1 | h1 | ⟨h1, h2⟩)
        · refine Or.inr ⟨Or.inl h1, ?_⟩
          intro he
          exact hp (by rw [← h1]; exact he)
        · exact Or.inl h1
        · exact Or.inr ⟨Or.inr h1, h2⟩
      · rintro (h1 | ⟨h1 | h1, h2⟩)
        · exact Or.inr (Or.inl h1)
        · exact Or.inl h1
        · exact Or.inr (Or.inr ⟨h1, h2⟩)

/-! ### setData lemmas -/

theorem setData_cons {p : Key × Entry} {rest : List (Key × Entry)} {k : Key} {d : Bson} :
    setData (p :: rest) k d =
      (if p.1 = k then (p.1, ⟨p.2.id, d, p.2.expires_at⟩) else p) :: setData rest k d := rfl

theorem imGet_setData {l : List (Key × Entry)} {k k' : Key} {d : Bson} :
    imGet (setData l k d) k' =
      (imGet l k').map (fun e => if k' = k then ⟨e.id, d, e.expires_at⟩ else e) := by
  induction l with
  | nil => simp [setData, imGet]
  | cons p rest ih =>
    rw [setData_cons]
    by_cases hp : p.1 = k
    · rw [if_pos hp]
      by_cases hq : p.1 = k'
      · have hk : k' = k := by rw [← hq, hp]
        simp [imGet, hq, hk]
      · simp [imGet, hq, ih]
    · rw [if_neg hp]
      by_cases hq : p.1 = k'
      · have hk : ¬k' = k := fun he => hp (by rw [hq, he])
        simp [imGet, hq, hk]
      · simp [imGet, hq, ih]

theorem keys_setData {l : List (Key × Entry)} {k : Key} {d : Bson} :
    (setData l k d).map Prod.fst = l.map Prod.fst := by
  induction l with
  | nil => simp [setData]
  | cons p rest ih =>
    by_cases hp : p.1 = k
    · simpa [setData, hp] using ih
    · simpa [setData, hp] using ih

theorem mem_setData {l : List (Key × Entry)} {k : Key} {d : Bson}
    {x : Key × Entry} (h : x ∈ setData l k d) :
    ∃ y ∈ l, x.1 = y.1 ∧ x.2.id = y.2.id ∧ x.2.expires_at = y.2.expires_at := by
  rcases List.mem_map.1 h with ⟨y, hy, hxy⟩
  refine ⟨y, hy, ?_⟩
  by_cases hp : y.1 = k
  · simp only [if_pos hp] at hxy
    subst hxy; exact ⟨rfl, rfl, rfl⟩
  · simp only [if_neg hp] at hxy
    subst hxy; exact ⟨rfl, rfl, rfl⟩

/-! ### Swap-removal lemmas -/

theorem imFindIdx_none {l : List (Key × Entry)} {k : Key} :
    imFindIdx l k = none ↔ imGet l k = none := by
  induction l with
  | nil => simp [imFindIdx, imGet]
  | cons p rest ih =>
    by_cases h : p.1 = k
    · simp [imFindIdx, imGet, h]
    · simp [imFindIdx, imGet, h, ih]

theorem imFindIdx_get {l : List (Key × Entry)} {k : Key} {i : Nat}
    (h : imFindIdx l k = some i) :
    ∃ p, l.get? i = some p ∧ p.1 = k ∧ imGet l k = some p.2 := by
  induction l generalizing i with
  | nil => simp [imFindIdx] at h
  | cons p rest ih =>
    by_cases hp : p.1 = k
    · simp only [imFindIdx, if_pos hp] at h
      obtain rfl : (0 : Nat) = i := Option.some.inj h
      exact ⟨p, rfl, hp, by simp [imGet, hp]⟩
    · simp only [imFindIdx, if_neg hp] at h
      rcases Option.map_eq_some'.1 h with ⟨j, hj, hij⟩
      obtain ⟨q, hq, hqk, hg⟩ := ih hj
      refine ⟨q, ?_, hqk, by simp [imGet, hp, hg]⟩
      rw [← hij]
      simpa using hq

theorem imRemoveIdx_perm {l : List (Key × Entry)} {i : Nat} {p : Key × Entry}
    (h : l.get? i = some p) : (p :: imRemoveIdx l i).Perm l := by
  induction l generalizing i with
  | nil => simp at h
  | cons q rest ih =>
    cases i with
    | zero =>
      obtain rfl : q = p := by simpa using h
      rcases List.eq_nil_or_concat rest with hr | ⟨B, a, hr⟩
      · subst hr
        simp [imRemoveIdx]
      · rw [List.concat_eq_append] at hr
        subst hr
        simp only [imRemoveIdx, List.getLast?_concat, List.dropLast_concat]
        exact List.Perm.cons _ (List.perm_append_singleton a B).symm
    | succ j =>
      have hj : rest.get? j = some p := by simpa using h
      have hperm := ih hj
      exact (List.Perm.swap q p _).trans (hperm.cons q)

theorem imRemove_snd {l : List (Key × Entry)} {k : Key} :
    (imRemove l k).2 = imGet l k := by
  unfold imRemove
  cases h : imFindIdx l k with
  | none => exact (imFindIdx_none.1 h).symm
  | some i => rfl

theorem imRemove_not_found {l : List (Key × Entry)} {k : Key}
    (h : imGet l k = none) : imRemove l k = (l, none) := by
  unfold imRemove
  rw [imFindIdx_none.2 h]

theorem imRemove_found_perm {l : List (Key × Entry)} {k : Key} {e : Entry}
    (h : imGet l k = some e) : ((k, e) :: (imRemove l k).1).Perm l := by
  cases hf : imFindIdx l k with
  | none =>
    rw [imFindIdx_none.1 hf] at h
    exact absurd h (by simp)
  | some i =>
    obtain ⟨p, hget, hk, hg⟩ := imFindIdx_get hf
    have hp : p = (k, e) := by
      obtain ⟨pk, pe⟩ := p
      obtain rfl : pk = k := hk
      obtain rfl : pe = e := by rw [h] at hg; exact (Option.some.inj hg).symm
      rfl
    have : (imRemove l k).1 = imRemoveIdx l i := by unfold imRemove; rw [hf]
    rw [this, ← hp]
    exact imRemoveIdx_perm hget

theorem nodup_elems_of_nodupKeys {l : List (Key × Entry)} (h : NodupKeys l) :
    l.Nodup := List.Nodup.of_map Prod.fst h

theorem nodup_imRemove {l : List (Key × Entry)} {k : Key} (hnd : NodupKeys l) :
    NodupKeys (imRemove l k).1 := by
  cases h : imGet l k with
  | none => rw [imRemove_not_found h]; exact hnd
  | some e =>
    have hperm := (imRemove_found_perm h).map Prod.fst
    have := hperm.symm.nodup (hnd : (l.map Prod.fst).Nodup)
    exact (List.nodup_cons.1 (by simpa using this)).2

theorem mem_imRemove_iff {l : List (Key × Entry)} {k : Key} {x : Key × Entry}
    (hnd : NodupKeys l) : x ∈ (imRemove l k).1 ↔ x ∈ l ∧ x.1 ≠ k := by
  cases h : imGet l k with
  | none =>
    rw [imRemove_not_found h]
    constructor
    · intro hx
      refine ⟨hx, ?_⟩
      intro hk
      have : imGet l x.1 = some x.2 := mem_imGet hnd hx
      rw [hk, h] at this
      exact absurd this (by simp)
    · exact fun hx => hx.1
  | some e =>
    have hperm := imRemove_found_perm h
    have hnodup : ((k, e) :: (imRemove l k).1).Nodup :=
      hperm.symm.nodup (nodup_elems_of_nodupKeys hnd)
    constructor
    · intro hx
      have hxl : x ∈ l := hperm.mem_iff.1 (List.mem_cons_of_mem _ hx)
      refine ⟨hxl, ?_⟩
      intro hxk
      have hx2 : x = (k, e) := by
        have hg : imGet l x.1 = some x.2 := mem_imGet hnd hxl
        rw [hxk, h] at hg
        obtain ⟨x1, x2⟩ := x
        obtain rfl : x1 = k := hxk
        obtain rfl : x2 = e := (Option.some.inj hg).symm
        rfl
      exact (List.nodup_cons.1 hnodup).1 (hx2 ▸ hx)
    · rintro ⟨hxl, hxk⟩
      rcases List.mem_cons.1 (hperm.mem_iff.2 hxl) with h1 | h1
      · exact absurd (by rw [h1]) hxk
      · exact h1

theorem imGet_imRemove {l : List (Key × Entry)} {k k' : Key} (hnd : NodupKeys l) :
    imGet (imRemove l k).1 k' = if k' = k then none else imGet l k' := by
  by_cases hk : k' = k
  · rw [if_pos hk, imGet_eq_none]
    intro hmem
    rcases List.mem_map.1 hmem with ⟨x, hx, hx1⟩
    exact ((mem_imRemove_iff hnd).1 hx).2 (by rw [hx1, hk])
  · rw [if_neg hk]
    cases hg : imGet l k' with
    | none =>
      rw [imGet_eq_none] at hg ⊢
      intro hmem
      rcases List.mem_map.1 hmem with ⟨x, hx, hx1⟩
      exact hg (hx1 ▸ List.mem_map_of_mem Prod.fst ((mem_imRemove_iff hnd).1 hx).1)
    | some e' =>
      apply mem_imGet (nodup_imRemove hnd)
      apply (mem_imRemove_iff hnd).2
      exact ⟨imGet_mem hg, hk⟩

/-! ### Expiration-index (BTreeMap) lemmas -/

theorem pairLt_trans {a b c : Nat × Nat} (h1 : pairLt a b) (h2 : pairLt b c) :
    pairLt a c := by
  obtain ⟨a1, a2⟩ := a; obtain ⟨b1, b2⟩ := b; obtain ⟨c1, c2⟩ := c
  unfold pairLt at *
  omega

theorem pairLt_ne {a b : Nat × Nat} (h : pairLt a b) : a ≠ b := by
  obtain ⟨a1, a2⟩ := a; obtain ⟨b1, b2⟩ := b
  unfold pairLt at h
  intro he
  obtain ⟨rfl, rfl⟩ := Prod.mk.injEq .. ▸ And.intro (congrArg Prod.fst he) (congrArg Prod.snd he)
  omega

theorem pairLt_total {a b : Nat × Nat} (h1 : ¬pairLt a b) (h2 : a ≠ b) : pairLt b a := by
  obtain ⟨a1, a2⟩ := a; obtain ⟨b1, b2⟩ := b
  unfold pairLt at *
  have : ¬(a1 = b1 ∧ a2 = b2) := fun hc => h2 (by rw [hc.1, hc.2])
  omega

theorem recordKeys_nodup {m : List ((Nat × Nat) × Key)} (h : BtSorted m) :
    (m.map Prod.fst).Nodup := by
  rw [List.Nodup, List.pairwise_map]
  exact h.imp (fun hab => pairLt_ne hab)

theorem record_unique {m : List ((Nat × Nat) × Key)} {r1 r2 : (Nat × Nat) × Key}
    (h : BtSorted m) (h1 : r1 ∈ m) (h2 : r2 ∈ m) (hk : r1.1 = r2.1) : r1 = r2 := by
  induction m with
  | nil => simp at h1
  | cons a rest ih =>
    have hh := List.pairwise_cons.1 h
    rcases List.mem_cons.1 h1 with e1 | e1 <;> rcases List.mem_cons.1 h2 with e2 | e2
    · rw [e1, e2]
    · exact absurd (e1 ▸ hk) (pairLt_ne (hh.1 r2 e2))
    · exact absurd (e2 ▸ hk.symm) (pairLt_ne (hh.1 r1 e1))
    · exact ih hh.2 e1 e2

theorem mem_btInsert_self {m : List ((Nat × Nat) × Key)} {w : Nat × Nat} {k : Key} :
    (w, k) ∈ btInsert m w k := by
  induction m with
  | nil => simp [btInsert]
  | cons r rest ih =>
    by_cases h1 : pairLt w r.1
    · simp [btInsert, h1]
    · by_cases h2 : w = r.1
      · simp only [btInsert, if_neg h1, if_pos h2]
        exact List.mem_cons_self _ _
      · simp only [btInsert, if_neg h1, if_neg h2]
        exact List.mem_cons_of_mem _ ih

theorem mem_btInsert_elim {m : List ((Nat × Nat) × Key)} {w : Nat × Nat} {k : Key}
    {x : (Nat × Nat) × Key} (h : x ∈ btInsert m w k) : x = (w, k) ∨ x ∈ m := by
  induction m with
  | nil => simpa [btInsert] using h
  | cons r rest ih =>
    by_cases h1 : pairLt w r.1
    · simp only [btInsert, if_pos h1, List.mem_cons] at h
      rcases h with h | h | h
      · exact Or.inl h
      · exact Or.inr (h ▸ List.mem_cons_self _ _)
      · exact Or.inr (List.mem_cons_of_mem _ h)
    · by_cases h2 : w = r.1
      · simp only [btInsert, if_neg h1, if_pos h2, List.mem_cons] at h
        rcases h with h | h
        · exact Or.inl h
        · exact Or.inr (List.mem_cons_of_mem _ h)
      · simp only [btInsert, if_neg h1, if_neg h2, List.mem_cons] at h
        rcases h with h | h
        · exact Or.inr (h ▸ List.mem_cons_self _ _)
        · rcases ih h with h3 | h3
          · exact Or.inl h3
          · exact Or.inr (List.mem_cons_of_mem _ h3)

theorem mem_btInsert_of_ne {m : List ((Nat × Nat) × Key)} {w : Nat × Nat} {k : Key}
    {x : (Nat × Nat) × Key} (hx : x ∈ m) (hne : x.1 ≠ w) : x ∈ btInsert m w k := by
  induction m with
  | nil => simp at hx
  | cons r rest ih =>
    by_cases h1 : pairLt w r.1
    · simp only [btInsert, if_pos h1]
      exact List.mem_cons_of_mem _ hx
    · by_cases h2 : w = r.1
      · simp only [btInsert, if_neg h1, if_pos h2]
        rcases List.mem_cons.1 hx with h | h
        · exact absurd (by rw [h, ← h2]) hne
        · exact List.mem_cons_of_mem _ h
      · simp only [btInsert, if_neg h1, if_neg h2]
        rcases List.mem_cons.1 hx with h | h
        · exact h ▸ List.mem_cons_self _ _
        · exact List.mem_cons_of_mem _ (ih h)

theorem btSorted_btInsert {m : List ((Nat × Nat) × Key)} {w : Nat × Nat} {k : Key}
    (h : BtSorted m) : BtSorted (btInsert m w k) := by
  induction m with
  | nil => simp [btInsert, BtSorted]
  | cons r rest ih =>
    have hh := List.pairwise_cons.1 h
    by_cases h1 : pairLt w r.1
    · simp only [btInsert, if_pos h1]
      refine List.pairwise_cons.2 ⟨?_, h⟩
      intro x hx
      rcases List.mem_cons.1 hx with e | e
      · exact e ▸ h1
      · exact pairLt_trans h1 (hh.1 x e)
    · by_cases h2 : w = r.1
      · simp only [btInsert, if_neg h1, if_pos h2]
        refine List.pairwise_cons.2 ⟨?_, hh.2⟩
        intro x hx
        exact h2 ▸ hh.1 x hx
      · simp only [btInsert, if_neg h1, if_neg h2]
        refine List.pairwise_cons.2 ⟨?_, ih hh.2⟩
        intro x hx
        rcases mem_btInsert_elim hx with e | e
        · exact e ▸ pairLt_total h1 h2
        · exact hh.1 x e

theorem mem_btInsert_iff {m : List ((Nat × Nat) × Key)} {w : Nat × Nat} {k : Key}
    {x : (Nat × Nat) × Key} (h : BtSorted m) :
    x ∈ btInsert m w k ↔ x = (w, k) ∨ (x ∈ m ∧ x.1 ≠ w) := by
  constructor
  · intro hx
    rcases mem_btInsert_elim hx with h1 | h1
    · exact Or.inl h1
    · by_cases h2 : x.1 = w
      · -- a record with key w survives only as the inserted record
        left
        by_contra h3
        -- find the contradiction: x is in m with key w, so the insert replaced it
        induction m with
        | nil => simp at h1
        | cons r rest ih =>
          have hh := List.pairwise_cons.1 h
          by_cases hc1 : pairLt w r.1
          · rcases List.mem_cons.1 h1 with e | e
            · exact pairLt_ne hc1 (by rw [← h2, e])
            · exact pairLt_ne (pairLt_trans hc1 (hh.1 x e)) (by rw [h2])
          · by_cases hc2 : w = r.1
            · rcases List.mem_cons.1 h1 with e | e
              · -- x = r, but the result dropped r; x must be (w, k) or in rest
                simp only [btInsert, if_neg hc1, if_pos hc2, List.mem_cons] at hx
                rcases hx with hx | hx
                · exact h3 hx
                · exact pairLt_ne (hh.1 x hx) (by rw [← hc2, h2])
              · exact pairLt_ne (hh.1 x e) (by rw [← hc2, h2])
            · rcases List.mem_cons.1 h1 with e | e
              · exact hc2 (by rw [← h2, e])
              · simp only [btInsert, if_neg hc1, if_neg hc2, List.mem_cons] at hx
                rcases hx with hx | hx
                · exact hc2 (by rw [← h2, hx])
                · exact ih hh.2 hx e
      · exact Or.inr ⟨h1, h2⟩
  · rintro (h1 | ⟨h1, h2⟩)
    · exact h1 ▸ mem_btInsert_self
    · exact mem_btInsert_of_ne h1 h2

theorem btRemove_sublist {m : List ((Nat × Nat) × Key)} {w : Nat × Nat} :
    (btRemove m w).Sublist m := by
  induction m with
  | nil => simp [btRemove]
  | cons r rest ih =>
    by_cases h : r.1 = w
    · simp only [btRemove, if_pos h]
      exact List.sublist_cons_self r rest
    · simp only [btRemove, if_neg h]
      exact ih.cons₂ r

theorem btSorted_btRemove {m : List ((Nat × Nat) × Key)} {w : Nat × Nat}
    (h : BtSorted m) : BtSorted (btRemove m w) :=
  List.Pairwise.sublist btRemove_sublist h

theorem mem_btRemove_of_ne {m : List ((Nat × Nat) × Key)} {w : Nat × Nat}
    {x : (Nat × Nat) × Key} (hx : x ∈ m) (hne : x.1 ≠ w) : x ∈ btRemove m w := by
  induction m with
  | nil => simp at hx
  | cons r rest ih =>
    by_cases h : r.1 = w
    · simp only [btRemove, if_pos h]
      rcases List.mem_cons.1 hx with e | e
      · exact absurd (by rw [e, h]) hne
      · exact e
    · simp only [btRemove, if_neg h]
      rcases List.mem_cons.1 hx with e | e
      · exact e ▸ List.mem_cons_self _ _
      · exact List.mem_cons_of_mem _ (ih e)

theorem key_not_mem_btRemove {m : List ((Nat × Nat) × Key)} {w : Nat × Nat}
    (h : (m.map Prod.fst).Nodup) : w ∉ (btRemove m w).map Prod.fst := by
  induction m with
  | nil => simp [btRemove]
  | cons r rest ih =>
    have hh := List.nodup_cons.1 (show (r.1 :: rest.map Prod.fst).Nodup from h)
    by_cases hr : r.1 = w
    · simp only [btRemove, if_pos hr]
      exact hr ▸ hh.1
    · simp only [btRemove, if_neg hr, List.map_cons, List.mem_cons]
      rintro (e | e)
      · exact hr e.symm
      · exact ih hh.2 e

theorem removePrevRecord_sublist {m : List ((Nat × Nat) × Key)} {prev : Option Entry} :
    (removePrevRecord m prev).Sublist m := by
  cases prev with
  | none => exact List.Sublist.refl m
  | some p =>
    cases hp : p.expires_at with
    | none => simp only [removePrevRecord, hp]; exact List.Sublist.refl m
    | some w => simp only [removePrevRecord, hp]; exact btRemove_sublist

/-! ### The cross-structure state invariant (spec Section 3) -/

/-- The invariants of the guarded state: the value table is a map, the
expiration index is strictly sorted (hence a map), every issued id is
below `next_id`, every TTL-carrying entry has its index record, and every
index record points back to a matching entry. -/
structure Inv (s : State) : Prop where
  nodup : NodupKeys s.entries
  sorted : BtSorted s.expirations
  idBound : ∀ p ∈ s.entries, p.2.id < s.next_id
  fwd : ∀ p ∈ s.entries, ∀ t, p.2.expires_at = some t →
    ((t, p.2.id), p.1) ∈ s.expirations
  bwd : ∀ r ∈ s.expirations, ∃ e, imGet s.entries r.2 = some e ∧
    e.id = r.1.2 ∧ e.expires_at = some r.1.1

theorem Inv.record_key_inj {s : State} (h : Inv s) {k1 k2 : Key} {e1 e2 : Entry}
    {t1 t2 : Nat} (h1 : (k1, e1) ∈ s.entries) (he1 : e1.expires_at = some t1)
    (h2 : imGet s.entries k2 = some e2) (he2 : e2.expires_at = some t2)
    (hk : (t1, e1.id) = (t2, e2.id)) : k1 = k2 := by
  have r1 : ((t1, e1.id), k1) ∈ s.expirations := h.fwd _ h1 t1 he1
  have r2 : ((t2, e2.id), k2) ∈ s.expirations := h.fwd _ (imGet_mem h2) t2 he2
  have := record_unique h.sorted r1 r2 hk
  exact congrArg Prod.snd this

theorem mem_removePrevRecord_of_other {s : State} (hInv : Inv s) {k : Key}
    {p : Key × Entry} (hp : p ∈ s.entries) (hne : p.1 ≠ k) {t : Nat}
    (ht : p.2.expires_at = some t) (m : List ((Nat × Nat) × Key))
    (hmem : ((t, p.2.id), p.1) ∈ m) :
    ((t, p.2.id), p.1) ∈ removePrevRecord m (imGet s.entries k) := by
  cases hg : imGet s.entries k with
  | none => simpa [removePrevRecord] using hmem
  | some pe =>
    cases hpe : pe.expires_at with
    | none => simpa [removePrevRecord, hpe] using hmem
    | some w =>
      simp only [removePrevRecord, hpe]
      apply mem_btRemove_of_ne hmem
      intro he
      exact hne (hInv.record_key_inj hp ht hg hpe he)

theorem inv_set {s : State} (h : Inv s) (k : Key) (v : Bson) : Inv (set s k v) := by
  refine ⟨nodup_imInsert h.nodup, ?_, ?_, ?_, ?_⟩
  · exact List.Pairwise.sublist removePrevRecord_sublist h.sorted
  · intro p hp
    rcases (mem_imInsert_iff h.nodup).1 hp with h1 | ⟨h1, _⟩
    · rw [h1]
      exact Nat.lt_succ_self _
    · exact Nat.lt_succ_of_lt (h.idBound p h1)
  · intro p hp t ht
    rcases (mem_imInsert_iff h.nodup).1 hp with h1 | ⟨h1, h2⟩
    · rw [h1] at ht
      exact absurd ht (by simp)
    · exact mem_removePrevRecord_of_other h h1 h2 ht _ (h.fwd p h1 t ht)
  · intro r hr
    have hrm : r ∈ s.expirations := removePrevRecord_sublist.subset hr
    obtain ⟨e, hg, hid, hexp⟩ := h.bwd r hrm
    by_cases hk : r.2 = k
    · exfalso
      rw [hk] at hg
      have hres : (set s k v).expirations = btRemove s.expirations (r.1.1, e.id) := by
        show removePrevRecord s.expirations (imGet s.entries k) = _
        rw [hg]
        simp [removePrevRecord, hexp]
      rw [hres] at hr
      rw [hid] at hr
      apply key_not_mem_btRemove (m := s.expirations) (w := (r.1.1, r.1.2))
        (recordKeys_nodup h.sorted)
      exact List.mem_map_of_mem Prod.fst hr
    · refine ⟨e, ?_, hid, hexp⟩
      show imGet (imInsert s.entries k ⟨s.next_id, v, none⟩) r.2 = some e
      rw [imGet_imInsert_ne hk]
      exact hg

theorem inv_insertNew {s : State} (h : Inv s) {k : Key}
    (hg : imGet s.entries k = none) (v : Bson) :
    Inv { s with entries := imInsert s.entries k ⟨s.next_id, v, none⟩,
                 next_id := s.next_id + 1 } := by
  refine ⟨nodup_imInsert h.nodup, h.sorted, ?_, ?_, ?_⟩
  · intro p hp
    rcases (mem_imInsert_iff h.nodup).1 hp with h1 | ⟨h1, _⟩
    · rw [h1]
      exact Nat.lt_succ_self _
    · exact Nat.lt_succ_of_lt (h.idBound p h1)
  · intro p hp t ht
    rcases (mem_imInsert_iff h.nodup).1 hp with h1 | ⟨h1, _⟩
    · rw [h1] at ht
      exact absurd ht (by simp)
    · exact h.fwd p h1 t ht
  · intro r hr
    obtain ⟨e, hge, hid, hexp⟩ := h.bwd r hr
    by_cases hk : r.2 = k
    · rw [hk, hg] at hge
      exact absurd hge (by simp)
    · refine ⟨e, ?_, hid, hexp⟩
      show imGet (imInsert s.entries k ⟨s.next_id, v, none⟩) r.2 = some e
      rw [imGet_imInsert_ne hk]
      exact hge

theorem inv_setData {s : State} (h : Inv s) (k : Key) (d : Bson) :
    Inv { s with entries := setData s.entries k d } := by
  refine ⟨?_, h.sorted, ?_, ?_, ?_⟩
  · show NodupKeys (setData s.entries k d)
    unfold NodupKeys
    rw [keys_setData]
    exact h.nodup
  · intro p hp
    obtain ⟨y, hy, _, hid, _⟩ := mem_setData hp
    rw [hid]
    exact h.idBound y hy
  · intro p hp t ht
    obtain ⟨y, hy, hk1, hid, hexp⟩ := mem_setData hp
    rw [hk1, hid]
    exact h.fwd y hy t (by rw [← hexp]; exact ht)
  · intro r hr
    obtain ⟨e, hge, hid, hexp⟩ := h.bwd r hr
    by_cases hk : r.2 = k
    · refine ⟨⟨e.id, d, e.expires_at⟩, ?_, hid, hexp⟩
      show imGet (setData s.entries k d) r.2 = _
      rw [imGet_setData, hge]
      simp [hk]
    · refine ⟨e, ?_, hid, hexp⟩
      show imGet (setData s.entries k d) r.2 = some e
      rw [imGet_setData, hge]
      simp [hk]

theorem inv_replaceKeepMeta {s : State} (h : Inv s) {k : Key} {entry : Entry}
    (hg : imGet s.entries k = some entry) (v : Bson) :
    Inv { s with entries := imInsert s.entries k ⟨entry.id, v, entry.expires_at⟩ } := by
  refine ⟨nodup_imInsert h.nodup, h.sorted, ?_, ?_, ?_⟩
  · intro p hp
    rcases (mem_imInsert_iff h.nodup).1 hp with h1 | ⟨h1, _⟩
    · rw [h1]
      exact h.idBound (k, entry) (imGet_mem hg)
    · exact h.idBound p h1
  · intro p hp t ht
    rcases (mem_imInsert_iff h.nodup).1 hp with h1 | ⟨h1, _⟩
    · rw [h1] at ht ⊢
      exact h.fwd (k, entry) (imGet_mem hg) t ht
    · exact h.fwd p h1 t ht
  · intro r hr
    obtain ⟨e, hge, hid, hexp⟩ := h.bwd r hr
    by_cases hk : r.2 = k
    · have he : e = entry := by
        rw [hk, hg] at hge
        exact (Option.some.inj hge).symm
      refine ⟨⟨entry.id, v, entry.expires_at⟩, ?_, ?_, ?_⟩
      · show imGet (imInsert s.entries k ⟨entry.id, v, entry.expires_at⟩) r.2 = _
        rw [hk]
        exact imGet_imInsert_self
      · show entry.id = r.1.2
        rw [← he]
        exact hid
      · show entry.expires_at = some r.1.1
        rw [← he]
        exact hexp
    · refine ⟨e, ?_, hid, hexp⟩
      show imGet (imInsert s.entries k ⟨entry.id, v, entry.expires_at⟩) r.2 = some e
      rw [imGet_imInsert_ne hk]
      exact hge

theorem inv_getset {s : State} (h : Inv s) (k : Key) (v : Bson) :
    Inv (getset s k v).1 := by
  cases hg : imGet s.entries k with
  | none =>
    simp only [getset, hg]
    exact inv_insertNew h hg v
  | some entry =>
    simp only [getset, hg]
    exact inv_replaceKeepMeta h hg v

theorem inv_incr {s : State} (h : Inv s) (k : Key) : Inv (incr s k).1 := by
  cases hg : imGet s.entries k with
  | none =>
    simp only [incr, hg]
    exact inv_insertNew h hg (.int64 0)
  | some entry =>
    cases hd : entry.data.as_i64 with
    | none => simp only [incr, hg, hd]; exact h
    | some counter => simp only [incr, hg, hd]; exact inv_setData h k _

theorem inv_incr_by {s : State} (h : Inv s) (k : Key) (n : Int) :
    Inv (incr_by s k n).1 := by
  cases hg : imGet s.entries k with
  | none =>
    simp only [incr_by, hg]
    exact inv_insertNew h hg (.int64 n)
  | some entry =>
    cases hd : entry.data.as_i64 with
    | none => simp only [incr_by, hg, hd]; exact h
    | some counter => simp only [incr_by, hg, hd]; exact inv_setData h k _

theorem inv_decr {s : State} (h : Inv s) (k : Key) : Inv (decr s k).1 := by
  cases hg : imGet s.entries k with
  | none =>
    simp only [decr, hg]
    exact inv_insertNew h hg (.int64 0)
  | some entry =>
    cases hd : entry.data.as_i64 with
    | none => simp only [decr, hg, hd]; exact h
    | some counter => simp only [decr, hg, hd]; exact inv_setData h k _

theorem inv_decr_by {s : State} (h : Inv s) (k : Key) (n : Int) :
    Inv (decr_by s k n).1 := by
  cases hg : imGet s.entries k with
  | none =>
    simp only [decr_by, hg]
    exact inv_insertNew h hg (.int64 n)
  | some entry =>
    cases hd : entry.data.as_i64 with
    | none => simp only [decr_by, hg, hd]; exact h
    | some counter => simp only [decr_by, hg, hd]; exact inv_setData h k _

theorem inv_shutdown {s : State} (h : Inv s) : Inv (shutdown_purge_task s) :=
  ⟨h.nodup, h.sorted, h.idBound, h.fwd, h.bwd⟩

theorem Inv.recordId_lt {s : State} (h : Inv s) : ∀ r ∈ s.expirations, r.1.2 < s.next_id := by
  intro r hr
  obtain ⟨e, hg, hid, _⟩ := h.bwd r hr
  have := h.idBound (r.2, e) (imGet_mem hg)
  rw [← hid]
  exact this

theorem setex_none_eq_set {s : State} {k : Key} {v : Bson} {now : Nat} :
    setex s k v none now = set s k v := rfl

theorem inv_setex {s : State} (h : Inv s) (k : Key) (v : Bson) (expire : Option Nat)
    (now : Nat) : Inv (setex s k v expire now) := by
  cases expire with
  | none =>
    rw [setex_none_eq_set]
    exact inv_set h k v
  | some dur =>
    have hsorted0 : BtSorted (btInsert s.expirations (now + dur, s.next_id) k) :=
      btSorted_btInsert h.sorted
    have hstate : setex s k v (some dur) now =
        { entries := imInsert s.entries k ⟨s.next_id, v, some (now + dur)⟩,
          expirations := removePrevRecord (btInsert s.expirations (now + dur, s.next_id) k)
            (imGet s.entries k),
          next_id := s.next_id + 1,
          shutdown := s.shutdown } := rfl
    rw [hstate]
    refine ⟨nodup_imInsert h.nodup, ?_, ?_, ?_, ?_⟩
    · exact List.Pairwise.sublist removePrevRecord_sublist hsorted0
    · intro p hp
      rcases (mem_imInsert_iff h.nodup).1 hp with h1 | ⟨h1, _⟩
      · rw [h1]
        exact Nat.lt_succ_self _
      · exact Nat.lt_succ_of_lt (h.idBound p h1)
    · intro p hp t ht
      rcases (mem_imInsert_iff h.nodup).1 hp with h1 | ⟨h1, h2⟩
      · -- the freshly inserted entry: its record was just inserted and survives
        rw [h1] at ht ⊢
        obtain rfl : now + dur = t := by simpa using ht
        show ((now + dur, s.next_id), k) ∈ removePrevRecord _ (imGet s.entries k)
        cases hg : imGet s.entries k with
        | none => simpa [removePrevRecord] using mem_btInsert_self
        | some pe =>
          cases hpe : pe.expires_at with
          | none => simpa [removePrevRecord, hpe] using mem_btInsert_self
          | some w =>
            simp only [removePrevRecord, hpe]
            apply mem_btRemove_of_ne mem_btInsert_self
            intro he
            have hlt : pe.id < s.next_id := h.idBound (k, pe) (imGet_mem hg)
            have : s.next_id = pe.id := congrArg Prod.snd he
            omega
      · -- a pre-existing entry with a different key
        have hrec : ((t, p.2.id), p.1) ∈ btInsert s.expirations (now + dur, s.next_id) k := by
          apply mem_btInsert_of_ne (h.fwd p h1 t ht)
          intro he
          have hlt : p.2.id < s.next_id := h.idBound p h1
          have : p.2.id = s.next_id := congrArg Prod.snd he
          omega
        exact mem_removePrevRecord_of_other h h1 h2 ht _ hrec
    · intro r hr
      have hr0 : r ∈ btInsert s.expirations (now + dur, s.next_id) k :=
        removePrevRecord_sublist.subset hr
      rcases (mem_btInsert_iff h.sorted).1 hr0 with h1 | ⟨h1, _⟩
      · refine ⟨⟨s.next_id, v, some (now + dur)⟩, ?_, ?_, ?_⟩
        · show imGet (imInsert s.entries k ⟨s.next_id, v, some (now + dur)⟩) r.2 = _
          rw [h1]
          exact imGet_imInsert_self
        · rw [h1]
        · rw [h1]
      · obtain ⟨e, hge, hid, hexp⟩ := h.bwd r h1
        by_cases hk : r.2 = k
        · exfalso
          rw [hk] at hge
          have hres : removePrevRecord (btInsert s.expirations (now + dur, s.next_id) k)
              (imGet s.entries k) =
              btRemove (btInsert s.expirations (now + dur, s.next_id) k) (r.1.1, e.id) := by
            rw [hge]
            simp [removePrevRecord, hexp]
          rw [hres, hid] at hr
          apply key_not_mem_btRemove (w := (r.1.1, r.1.2)) (recordKeys_nodup hsorted0)
          exact List.mem_map_of_mem Prod.fst hr
        · refine ⟨e, ?_, hid, hexp⟩
          show imGet (imInsert s.entries k ⟨s.next_id, v, some (now + dur)⟩) r.2 = some e
          rw [imGet_imInsert_ne hk]
          exact hge

theorem inv_setnx {s : State} (h : Inv s) (k : Key) (v : Bson) (expire : Option Nat)
    (now : Nat) : Inv (setnx s k v expire now).1 := by
  unfold setnx
  by_cases hc : (imGet s.entries k).isSome
  · simp only [if_pos hc]
    exact h
  · simp only [if_neg hc]
    exact inv_setex h k v expire now

theorem inv_mset {s : State} (h : Inv s) (kvs : List (Key × Bson)) :
    Inv (mset s kvs) := by
  induction kvs generalizing s with
  | nil => exact h
  | cons kv rest ih => exact ih (inv_set h kv.1 kv.2)

theorem inv_msetnx {s : State} (h : Inv s) (kvs : List (Key × Bson)) :
    Inv (msetnx s kvs).1 := by
  unfold msetnx
  by_cases hc : kvs.any (fun kv => (imGet s.entries kv.1).isSome)
  · simp only [if_pos hc]
    exact h
  · simp only [if_neg hc]
    exact inv_mset h kvs

theorem inv_del {s : State} (h : Inv s) (k : Key) : Inv (del s k) := by
  have hsnd : (imRemove s.entries k).2 = imGet s.entries k := imRemove_snd
  refine ⟨nodup_imRemove h.nodup, ?_, ?_, ?_, ?_⟩
  · exact List.Pairwise.sublist removePrevRecord_sublist h.sorted
  · intro p hp
    exact h.idBound p ((mem_imRemove_iff h.nodup).1 hp).1
  · intro p hp t ht
    obtain ⟨h1, h2⟩ := (mem_imRemove_iff h.nodup).1 hp
    show ((t, p.2.id), p.1) ∈ removePrevRecord s.expirations (imRemove s.entries k).2
    rw [hsnd]
    exact mem_removePrevRecord_of_other h h1 h2 ht _ (h.fwd p h1 t ht)
  · intro r hr
    have hrm : r ∈ s.expirations := removePrevRecord_sublist.subset hr
    obtain ⟨e, hge, hid, hexp⟩ := h.bwd r hrm
    by_cases hk : r.2 = k
    · exfalso
      rw [hk] at hge
      have hres : removePrevRecord s.expirations (imRemove s.entries k).2 =
          btRemove s.expirations (r.1.1, e.id) := by
        rw [hsnd, hge]
        simp [removePrevRecord, hexp]
      rw [show (del s k).expirations =
        removePrevRecord s.expirations (imRemove s.entries k).2 from rfl] at hr
      rw [hres, hid] at hr
      apply key_not_mem_btRemove (w := (r.1.1, r.1.2)) (recordKeys_nodup h.sorted)
      exact List.mem_map_of_mem Prod.fst hr
    · refine ⟨e, ?_, hid, hexp⟩
      show imGet (imRemove s.entries k).1 r.2 = some e
      rw [imGet_imRemove h.nodup, if_neg hk]
      exact hge

/-- One purge pass, characterised: provided the loop starts from a state
satisfying the cross-structure invariant, it removes exactly the records
whose instant is due (the sorted prefix) together with their entries,
preserves the invariant, and reports the earliest remaining deadline. -/
theorem purgeLoop_inv (now : Nat) (exps : List ((Nat × Nat) × Key)) :
    ∀ entries : List (Key × Entry), NodupKeys entries → BtSorted exps →
    (∀ p ∈ entries, ∀ t, p.2.expires_at = some t → ((t, p.2.id), p.1) ∈ exps) →
    (∀ r ∈ exps, ∃ e, imGet entries r.2 = some e ∧ e.id = r.1.2 ∧
      e.expires_at = some r.1.1) →
    NodupKeys (purgeLoop entries exps now).1 ∧
    BtSorted (purgeLoop entries exps now).2.1 ∧
    (∀ p ∈ (purgeLoop entries exps now).1, p ∈ entries) ∧
    (∀ p ∈ (purgeLoop entries exps now).1, ∀ t, p.2.expires_at = some t →
      ((t, p.2.id), p.1) ∈ (purgeLoop entries exps now).2.1) ∧
    (∀ r ∈ (purgeLoop entries exps now).2.1, ∃ e,
      imGet (purgeLoop entries exps now).1 r.2 = some e ∧ e.id = r.1.2 ∧
      e.expires_at = some r.1.1) ∧
    (purgeLoop entries exps now).2.1 = exps.filter (fun y => decide (now < y.1.1)) ∧
    (purgeLoop entries exps now).2.2 =
      (exps.filter (fun y => decide (now < y.1.1))).head?.map (fun y => y.1.1) ∧
    (∀ k, (∃ y, y ∈ exps ∧ y.1.1 ≤ now ∧ y.2 = k) →
      imGet (purgeLoop entries exps now).1 k = none) ∧
    (∀ k, (∀ y, y ∈ exps → y.1.1 ≤ now → y.2 ≠ k) →
      imGet (purgeLoop entries exps now).1 k = imGet entries k) := by
  induction exps with
  | nil =>
    intro entries hnd hs hfwd hbwd
    refine ⟨hnd, List.Pairwise.nil, fun p hp => hp, hfwd, hbwd, rfl, rfl, ?_, ?_⟩
    · intro k hk
      obtain ⟨y, hy, _, _⟩ := hk
      simp at hy
    · intro k _
      rfl
  | cons x rest ih =>
    intro entries hnd hs hfwd hbwd
    have hh := List.pairwise_cons.1 hs
    by_cases hnow : now < x.1.1
    · have hred : purgeLoop entries (x :: rest) now = (entries, x :: rest, some x.1.1) := by
        simp [purgeLoop, hnow]
      rw [hred]
      have hfilter : (x :: rest).filter (fun y => decide (now < y.1.1)) = x :: rest := by
        apply List.filter_eq_self.2
        intro a ha
        rcases List.mem_cons.1 ha with h1 | h1
        · rw [h1]
          simpa using hnow
        · have hpl := hh.1 a h1
          unfold pairLt at hpl
          have : now < a.1.1 := by omega
          simpa using this
      refine ⟨hnd, hs, fun p hp => hp, hfwd, hbwd, ?_, ?_, ?_, ?_⟩
      · rw [hfilter]
      · rw [hfilter]
        rfl
      · intro k hk
        exfalso
        obtain ⟨y, hy, hyle, _⟩ := hk
        rcases List.mem_cons.1 hy with h1 | h1
        · rw [h1] at hyle
          omega
        · have hpl := hh.1 y h1
          unfold pairLt at hpl
          omega
      · intro k _
        rfl
    · have hxle : x.1.1 ≤ now := Nat.le_of_not_lt hnow
      have hred : purgeLoop entries (x :: rest) now =
          purgeLoop (imRemove entries x.2).1 rest now := by
        simp [purgeLoop, hnow]
      have hnd1 : NodupKeys (imRemove entries x.2).1 := nodup_imRemove hnd
      have hfwd1 : ∀ p ∈ (imRemove entries x.2).1, ∀ t, p.2.expires_at = some t →
          ((t, p.2.id), p.1) ∈ rest := by
        intro p hp t ht
        obtain ⟨h1, h2⟩ := (mem_imRemove_iff hnd).1 hp
        rcases List.mem_cons.1 (hfwd p h1 t ht) with he | he
        · exact absurd (congrArg Prod.snd he) h2
        · exact he
      have hbwd1 : ∀ r ∈ rest, ∃ e, imGet (imRemove entries x.2).1 r.2 = some e ∧
          e.id = r.1.2 ∧ e.expires_at = some r.1.1 := by
        intro r hr
        obtain ⟨e, hge, hid, hexp⟩ := hbwd r (List.mem_cons_of_mem _ hr)
        have hrk : r.2 ≠ x.2 := by
          intro hrx
          obtain ⟨ex, hgx, hidx, hexpx⟩ := hbwd x (List.mem_cons_self _ _)
          rw [hrx] at hge
          have hee : e = ex := by
            rw [hge] at hgx
            exact Option.some.inj hgx
          have h2eq : r.1.1 = x.1.1 := by
            rw [hee] at hexp
            rw [hexp] at hexpx
            exact Option.some.inj hexpx
          have h3eq : r.1.2 = x.1.2 := by
            rw [← hid, hee, hidx]
          have h1eq : r.1 = x.1 := Prod.ext_iff.2 ⟨h2eq, h3eq⟩
          exact pairLt_ne (h1eq ▸ hh.1 r hr) rfl
        refine ⟨e, ?_, hid, hexp⟩
        rw [imGet_imRemove hnd, if_neg hrk]
        exact hge
      obtain ⟨C1, C2, C3, C4, C5, C6, C7, C8, C9⟩ :=
        ih (imRemove entries x.2).1 hnd1 hh.2 hfwd1 hbwd1
      rw [hred]
      have hfilter : (x :: rest).filter (fun y => decide (now < y.1.1)) =
          rest.filter (fun y => decide (now < y.1.1)) := by
        simp [List.filter_cons, hnow]
      refine ⟨C1, C2, ?_, C4, C5, ?_, ?_, ?_, ?_⟩
      · intro p hp
        exact ((mem_imRemove_iff hnd).1 (C3 p hp)).1
      · rw [hfilter]
        exact C6
      · rw [hfilter]
        exact C7
      · intro k hk
        obtain ⟨y, hy, hyle, hyk⟩ := hk
        rcases List.mem_cons.1 hy with h1 | h1
        · by_cases h2 : ∃ z, z ∈ rest ∧ z.1.1 ≤ now ∧ z.2 = k
          · exact C8 k h2
          · push_neg at h2
            have hkx : k = x.2 := by rw [← hyk, h1]
            rw [C9 k h2, imGet_imRemove hnd, if_pos hkx]
        · exact C8 k ⟨y, h1, hyle, hyk⟩
      · intro k hk
        have hxk : x.2 ≠ k := hk x (List.mem_cons_self _ _) hxle
        have hrest : ∀ z, z ∈ rest → z.1.1 ≤ now → z.2 ≠ k := fun z hz =>
          hk z (List.mem_cons_of_mem _ hz)
        rw [C9 k hrest, imGet_imRemove hnd, if_neg (fun he => hxk he.symm)]

theorem inv_purge {s : State} (h : Inv s) (now : Nat) :
    Inv (purge_expired_keys s now).1 := by
  unfold purge_expired_keys
  by_cases hsd : s.shutdown
  · simp only [if_pos hsd]
    exact h
  · simp only [if_neg hsd]
    obtain ⟨C1, C2, C3, C4, C5, _, _, _, _⟩ :=
      purgeLoop_inv now s.expirations s.entries h.nodup h.sorted h.fwd h.bwd
    exact ⟨C1, C2, fun p hp => h.idBound p (C3 p hp), C4, C5⟩

/-- Every reachable state satisfies the cross-structure invariant. -/
theorem reachable_inv {s : State} (h : Reachable s) : Inv s := by
  induction h with
  | init =>
    refine ⟨?_, ?_, ?_, ?_, ?_⟩ <;> simp [initialState, NodupKeys, BtSorted]
  | stepSet s k v _ ih => exact inv_set ih k v
  | stepGetset s k v _ ih => exact inv_getset ih k v
  | stepSetex s k v expire now _ ih => exact inv_setex ih k v expire now
  | stepSetnx s k v expire now _ ih => exact inv_setnx ih k v expire now
  | stepMset s kvs _ ih => exact inv_mset ih kvs
  | stepMsetnx s kvs _ ih => exact inv_msetnx ih kvs
  | stepIncr s k _ ih => exact inv_incr ih k
  | stepIncrBy s k n _ ih => exact inv_incr_by ih k n
  | stepDecr s k _ ih => exact inv_decr ih k
  | stepDecrBy s k n _ ih => exact inv_decr_by ih k n
  | stepDel s k _ ih => exact inv_del ih k
  | stepShutdown s _ ih => exact inv_shutdown ih
  | stepPurge s now _ ih => exact inv_purge ih now

/-! ### Further derived lemmas used by the claim theorems -/

theorem filter_key_eq_singleton {m : List ((Nat × Nat) × Key)} {x : (Nat × Nat) × Key}
    (hs : BtSorted m) (hx : x ∈ m) :
    m.filter (fun r => decide (r.1 = x.1)) = [x] := by
  induction m with
  | nil => simp at hx
  | cons a rest ih =>
    have hh := List.pairwise_cons.1 hs
    rcases List.mem_cons.1 hx with h1 | h1
    · subst h1
      have hrest : rest.filter (fun r => decide (r.1 = x.1)) = [] := by
        apply List.filter_eq_nil_iff.2
        intro r hr
        have hne := pairLt_ne (hh.1 r hr)
        simp only [decide_eq_true_eq]
        intro he
        exact hne he.symm
      simp [List.filter_cons, hrest]
    · have hne := pairLt_ne (hh.1 x h1)
      have hstep : (a :: rest).filter (fun r => decide (r.1 = x.1)) =
          rest.filter (fun r => decide (r.1 = x.1)) := by
        simp [List.filter_cons, hne]
      rw [hstep]
      exact ih hh.2 h1

theorem imRemoveIdx_get? {l : List (Key × Entry)} {i : Nat}
    (h : i + 1 < l.length) :
    (imRemoveIdx l i).get? i = l.get? (l.length - 1) := by
  induction l generalizing i with
  | nil => simp at h
  | cons p rest ih =>
    cases i with
    | zero =>
      have hlen : 0 < rest.length := by
        simp only [List.length_cons] at h
        omega
      rcases List.eq_nil_or_concat rest with hr | ⟨B, a, hr⟩
      · subst hr
        simp at hlen
      · rw [List.concat_eq_append] at hr
        subst hr
        simp only [imRemoveIdx, List.getLast?_concat, List.dropLast_concat]
        show some a = (p :: (B ++ [a])).get? ((p :: (B ++ [a])).length - 1)
        have hl : (p :: (B ++ [a])).length - 1 = B.length + 1 := by
          simp [List.length_append]
        rw [hl]
        show some a = (B ++ [a]).get? B.length
        rw [List.get?_concat_length]
    | succ j =>
      have hj : j + 1 < rest.length := by
        simp only [List.length_cons] at h
        omega
      show (p :: imRemoveIdx rest j).get? (j + 1) = (p :: rest).get? ((p :: rest).length - 1)
      have h1 : (p :: imRemoveIdx rest j).get? (j + 1) = (imRemoveIdx rest j).get? j := rfl
      rw [h1, ih hj]
      have h2 : (p :: rest).length - 1 = (rest.length - 1) + 1 := by
        simp only [List.length_cons]
        omega
      rw [h2]
      rfl

theorem imGet_set_self {s : State} {k : Key} {v : Bson} :
    imGet (set s k v).entries k = some ⟨s.next_id, v, none⟩ :=
  imGet_imInsert_self

theorem imGet_set_ne {s : State} {k k' : Key} {v : Bson} (h : k' ≠ k) :
    imGet (set s k v).entries k' = imGet s.entries k' :=
  imGet_imInsert_ne h

theorem set_next_id {s : State} {k : Key} {v : Bson} :
    (set s k v).next_id = s.next_id + 1 := rfl

theorem mset_nil {s : State} : mset s [] = s := rfl

theorem mset_cons {s : State} {kv : Key × Bson} {rest : List (Key × Bson)} :
    mset s (kv :: rest) = mset (set s kv.1 kv.2) rest := rfl

theorem mset_next_id (kvs : List (Key × Bson)) :
    ∀ s : State, (mset s kvs).next_id = s.next_id + kvs.length := by
  induction kvs with
  | nil =>
    intro s
    rfl
  | cons kv rest ih =>
    intro s
    rw [mset_cons, ih, set_next_id]
    simp only [List.length_cons]
    omega

theorem imGet_mset_not_mem (kvs : List (Key × Bson)) :
    ∀ (s : State) (k : Key), k ∉ kvs.map Prod.fst →
      imGet (mset s kvs).entries k = imGet s.entries k := by
  induction kvs with
  | nil =>
    intro s k _
    rfl
  | cons kv rest ih =>
    intro s k hk
    have hk1 : k ≠ kv.1 := fun he => hk (by simp [he])
    have hk2 : k ∉ rest.map Prod.fst := fun hm => hk (by simp [hm])
    rw [mset_cons, ih _ _ hk2]
    exact imGet_set_ne hk1

theorem imGet_mset_mem (kvs : List (Key × Bson)) :
    ∀ (s : State) (k : Key), k ∈ kvs.map Prod.fst →
      ∃ e, imGet (mset s kvs).entries k = some e ∧ e.expires_at = none ∧
        s.next_id ≤ e.id ∧ e.id < s.next_id + kvs.length ∧
        ∃ v, kvs.reverse.find? (fun kv => decide (kv.1 = k)) = some (k, v) ∧
          e.data = v := by
  induction kvs with
  | nil =>
    intro s k hk
    simp at hk
  | cons kv rest ih =>
    intro s k hk
    rw [mset_cons]
    by_cases hmem : k ∈ rest.map Prod.fst
    · obtain ⟨e, hg, hexp, hlo, hhi, v, hfind, hdata⟩ := ih (set s kv.1 kv.2) k hmem
      rw [set_next_id] at hlo hhi
      refine ⟨e, hg, hexp, by omega, by simp only [List.length_cons]; omega, v, ?_, hdata⟩
      show ((kv :: rest).reverse.find? (fun x => decide (x.1 = k))) = some (k, v)
      rw [List.reverse_cons, List.find?_append, hfind]
      rfl
    · have hk1 : k = kv.1 := by
        rcases List.mem_cons.1 (show k ∈ kv.1 :: rest.map Prod.fst from hk) with h1 | h1
        · exact h1
        · exact absurd h1 hmem
      refine ⟨⟨s.next_id, kv.2, none⟩, ?_, rfl, Nat.le_refl _, ?_, kv.2, ?_, rfl⟩
      · rw [imGet_mset_not_mem rest _ _ hmem, hk1]
        exact imGet_set_self
      · simp only [List.length_cons]
        omega
      · show ((kv :: rest).reverse.find? (fun x => decide (x.1 = k))) = some (k, kv.2)
        have hnone : rest.reverse.find? (fun x => decide (x.1 = k)) = none := by
          apply List.find?_eq_none.2
          intro x hx
          simp only [decide_eq_true_eq]
          intro he
          exact hmem (he ▸ List.mem_map_of_mem Prod.fst (List.mem_reverse.1 hx))
        rw [List.reverse_cons, List.find?_append, hnone]
        show (List.find? (fun x => decide (x.1 = k)) [kv]) = some (k, kv.2)
        have : decide (kv.1 = k) = true := by simp [hk1]
        simp only [List.find?_cons, this]
        rw [hk1]

/-! ### Claim theorems -/

/-- C1: in every reachable state of the store (any sequence of set, getset,
setex, setnx, mset, msetnx, incr, incr_by, decr, decr_by, del, shutdown and
reaper purge passes, observed when the lock is not held), every value-table
entry whose `expires_at` is `some t` has exactly one expiration-index record
with key `(t, entry.id)` — the filter of the index on that key is exactly the
singleton record pointing back at the entry's key — and conversely every
index record `((t, id), k)` corresponds to a value-table entry for `k` with
that same id and `expires_at = some t`. -/
theorem expiration_index_invariant (s : State) (h : Reachable s) :
    (∀ k e, imGet s.entries k = some e → ∀ t, e.expires_at = some t →
      s.expirations.filter (fun r => decide (r.1 = (t, e.id))) = [((t, e.id), k)]) ∧
    (∀ r ∈ s.expirations, ∃ e, imGet s.entries r.2 = some e ∧ e.id = r.1.2 ∧
      e.expires_at = some r.1.1) := by
  have hInv := reachable_inv h
  constructor
  · intro k e hg t ht
    have hmem : ((t, e.id), k) ∈ s.expirations := hInv.fwd (k, e) (imGet_mem hg) t ht
    exact filter_key_eq_singleton hInv.sorted hmem
  · exact hInv.bwd

/-- C1 witness: instantiated at the reachable state that setex builds from
the empty store, whose single entry carries the index record ((10,0),k). -/
theorem expiration_index_invariant_witness :
    (setex initialState (Key.uint32 1) (Bson.int64 7) (some 10) 0).expirations.filter
        (fun r => decide (r.1 = (10, 0))) = [((10, 0), Key.uint32 1)] :=
  (expiration_index_invariant _
      (Reachable.stepSetex _ (Key.uint32 1) (Bson.int64 7) (some 10) 0 Reachable.init)).1
    (Key.uint32 1) ⟨0, Bson.int64 7, some 10⟩ (by decide) 10 rfl

/-- C2: on a key absent from the value table, incr and decr store the
integer 0 (not plus-or-minus one) under a fresh id with no TTL and return
Ok 0, while incr_by n and decr_by n both store the positive magnitude n
(decr_by stores +n, not -n) and return Ok n. -/
theorem counter_missing_key_semantics (s : State) (k : Key) (n m : Int)
    (h : imGet s.entries k = none) :
    (incr s k).2 = .ok 0 ∧
    imGet (incr s k).1.entries k = some ⟨s.next_id, .int64 0, none⟩ ∧
    (incr s k).1.next_id = s.next_id + 1 ∧
    (decr s k).2 = .ok 0 ∧
    imGet (decr s k).1.entries k = some ⟨s.next_id, .int64 0, none⟩ ∧
    (decr s k).1.next_id = s.next_id + 1 ∧
    (incr_by s k n).2 = .ok n ∧
    imGet (incr_by s k n).1.entries k = some ⟨s.next_id, .int64 n, none⟩ ∧
    (incr_by s k n).1.next_id = s.next_id + 1 ∧
    (decr_by s k m).2 = .ok m ∧
    imGet (decr_by s k m).1.entries k = some ⟨s.next_id, .int64 m, none⟩ ∧
    (decr_by s k m).1.next_id = s.next_id + 1 := by
  refine ⟨?_, ?_, ?_, ?_, ?_, ?_, ?_, ?_, ?_, ?_, ?_, ?_⟩ <;>
    simp [incr, decr, incr_by, decr_by, h, imGet_imInsert_self]

/-- C2 witness: decr_by 5 on a missing key of the empty store stores +5 and
returns 5; likewise for the other three operations at their initial values. -/
theorem counter_missing_key_semantics_witness :
    (incr initialState (Key.str "a")).2 = .ok 0 ∧
    imGet (incr initialState (Key.str "a")).1.entries (Key.str "a") =
      some ⟨0, .int64 0, none⟩ ∧
    (incr initialState (Key.str "a")).1.next_id = 0 + 1 ∧
    (decr initialState (Key.str "a")).2 = .ok 0 ∧
    imGet (decr initialState (Key.str "a")).1.entries (Key.str "a") =
      some ⟨0, .int64 0, none⟩ ∧
    (decr initialState (Key.str "a")).1.next_id = 0 + 1 ∧
    (incr_by initialState (Key.str "a") 5).2 = .ok 5 ∧
    imGet (incr_by initialState (Key.str "a") 5).1.entries (Key.str "a") =
      some ⟨0, .int64 5, none⟩ ∧
    (incr_by initialState (Key.str "a") 5).1.next_id = 0 + 1 ∧
    (decr_by initialState (Key.str "a") 5).2 = .ok 5 ∧
    imGet (decr_by initialState (Key.str "a") 5).1.entries (Key.str "a") =
      some ⟨0, .int64 5, none⟩ ∧
    (decr_by initialState (Key.str "a") 5).1.next_id = 0 + 1 :=
  counter_missing_key_semantics initialState (Key.str "a") 5 5 rfl

/-- C3: each counter operation fails with WrongType exactly when the key
exists and its stored value is not viewable as a 64-bit signed integer, and
a WrongType failure leaves the state entirely unchanged.  (All other store
operations are total by their types in this embedding, mirroring the
source: only the four counter operations return a Result.) -/
theorem counter_wrong_type_iff (s : State) (k : Key) (n m : Int) :
    ((incr s k).2 = .error .WrongType ↔
      ∃ e, imGet s.entries k = some e ∧ e.data.as_i64 = none) ∧
    ((incr s k).2 = .error .WrongType → (incr s k).1 = s) ∧
    ((incr_by s k n).2 = .error .WrongType ↔
      ∃ e, imGet s.entries k = some e ∧ e.data.as_i64 = none) ∧
    ((incr_by s k n).2 = .error .WrongType → (incr_by s k n).1 = s) ∧
    ((decr s k).2 = .error .WrongType ↔
      ∃ e, imGet s.entries k = some e ∧ e.data.as_i64 = none) ∧
    ((decr s k).2 = .error .WrongType → (decr s k).1 = s) ∧
    ((decr_by s k m).2 = .error .WrongType ↔
      ∃ e, imGet s.entries k = some e ∧ e.data.as_i64 = none) ∧
    ((decr_by s k m).2 = .error .WrongType → (decr_by s k m).1 = s) := by
  cases hg : imGet s.entries k with
  | none =>
    refine ⟨?_, ?_, ?_, ?_, ?_, ?_, ?_, ?_⟩ <;>
      simp [incr, incr_by, decr, decr_by, hg]
  | some entry =>
    cases hd : entry.data.as_i64 with
    | none =>
      refine ⟨?_, ?_, ?_, ?_, ?_, ?_, ?_, ?_⟩ <;>
        simp [incr, incr_by, decr, decr_by, hg, hd]
    | some counter =>
      refine ⟨?_, ?_, ?_, ?_, ?_, ?_, ?_, ?_⟩ <;>
        simp [incr, incr_by, decr, decr_by, hg, hd]

/-- C3 witness: incr on a key holding a non-integer Bson value errors with
WrongType and leaves the state unchanged. -/
theorem counter_wrong_type_iff_witness :
    (incr (set initialState (Key.uint32 1) (Bson.other "x")) (Key.uint32 1)).1 =
      set initialState (Key.uint32 1) (Bson.other "x") :=
  (counter_wrong_type_iff (set initialState (Key.uint32 1) (Bson.other "x"))
      (Key.uint32 1) 0 0).2.1 rfl

/-- C10: the counter arithmetic is an unguarded 64-bit signed addition or
subtraction: on the reachable state holding the largest i64 value, incr
returns Ok of the wrapped sum (the two's-complement value, the mathematical
sum minus 2^64) and stores it, with no WrongType or other error; likewise
decr_by with the most negative i64 wraps.  `wrap64` is the embedding of the
release-profile wrapping semantics of Rust i64 `+`/`-`. -/
theorem counter_overflow_wraps :
    Reachable (set initialState (Key.uint32 0) (Bson.int64 (2 ^ 63 - 1))) ∧
    ¬((2 ^ 63 - 1 : Int) + 1 ≤ 2 ^ 63 - 1) ∧
    wrap64 ((2 ^ 63 - 1) + 1) = ((2 ^ 63 - 1) + 1) - 2 ^ 64 ∧
    (incr (set initialState (Key.uint32 0) (Bson.int64 (2 ^ 63 - 1))) (Key.uint32 0)).2 =
      .ok (-(2 ^ 63)) ∧
    imGet (incr (set initialState (Key.uint32 0)
        (Bson.int64 (2 ^ 63 - 1))) (Key.uint32 0)).1.entries (Key.uint32 0) =
      some ⟨0, Bson.int64 (-(2 ^ 63)), none⟩ ∧
    Reachable (set initialState (Key.uint32 0) (Bson.int64 0)) ∧
    (decr_by (set initialState (Key.uint32 0) (Bson.int64 0)) (Key.uint32 0)
        (-(2 ^ 63))).2 = .ok (-(2 ^ 63)) := by
  have h1 : imGet (set initialState (Key.uint32 0)
      (Bson.int64 (2 ^ 63 - 1))).entries (Key.uint32 0) =
      some ⟨0, Bson.int64 (2 ^ 63 - 1), none⟩ := imGet_set_self
  have h2 : imGet (set initialState (Key.uint32 0)
      (Bson.int64 0)).entries (Key.uint32 0) = some ⟨0, Bson.int64 0, none⟩ :=
    imGet_set_self
  refine ⟨Reachable.stepSet _ _ _ Reachable.init, by norm_num, by decide, ?_, ?_,
    Reachable.stepSet _ _ _ Reachable.init, ?_⟩
  · simp only [incr, h1, Bson.as_i64]
    exact congrArg Except.ok (by decide)
  · decide
  · simp only [decr_by, h2, Bson.as_i64]
    exact congrArg Except.ok (by decide)

/-- C4: msetnx is all-or-nothing.  If any key of the batch is present, it
returns false and the state is exactly unchanged (no key mutated, no id
consumed); if none is present it returns true and writes every pair in
iteration order: untouched keys keep their lookup result, every written key
holds an entry with no TTL whose id is fresh (allocated from next_id, one
per pair) and whose data is the value of the last pair with that key, and
next_id advances by the number of pairs. -/
theorem msetnx_all_or_nothing (s : State) (kvs : List (Key × Bson)) :
    ((∃ kv, kv ∈ kvs ∧ (imGet s.entries kv.1).isSome) → msetnx s kvs = (s, false)) ∧
    ((∀ kv ∈ kvs, imGet s.entries kv.1 = none) →
      (msetnx s kvs).2 = true ∧
      (msetnx s kvs).1.next_id = s.next_id + kvs.length ∧
      (∀ k, k ∉ kvs.map Prod.fst →
        imGet (msetnx s kvs).1.entries k = imGet s.entries k) ∧
      (∀ k, k ∈ kvs.map Prod.fst → ∃ e,
        imGet (msetnx s kvs).1.entries k = some e ∧ e.expires_at = none ∧
        s.next_id ≤ e.id ∧ e.id < s.next_id + kvs.length ∧
        ∃ v, kvs.reverse.find? (fun kv => decide (kv.1 = k)) = some (k, v) ∧
          e.data = v)) := by
  constructor
  · rintro ⟨kv, hm, hsome⟩
    have hany : kvs.any (fun kv => (imGet s.entries kv.1).isSome) = true :=
      List.any_eq_true.2 ⟨kv, hm, hsome⟩
    simp [msetnx, hany]
  · intro hall
    have hany : kvs.any (fun kv => (imGet s.entries kv.1).isSome) = false := by
      rw [List.any_eq_false]
      intro kv hm
      rw [hall kv hm]
      simp
    have hmn : msetnx s kvs = (mset s kvs, true) := by
      simp [msetnx, hany]
    rw [hmn]
    exact ⟨rfl, mset_next_id kvs s, fun k hk => imGet_mset_not_mem kvs s k hk,
      fun k hk => imGet_mset_mem kvs s k hk⟩

/-- C4 witness: a batch whose first key already exists aborts with false and
leaves the state exactly as it was. -/
theorem msetnx_all_or_nothing_witness :
    msetnx (set initialState (Key.uint32 1) (Bson.int64 1))
        [(Key.uint32 1, Bson.int64 2), (Key.uint32 2, Bson.int64 3)] =
      (set initialState (Key.uint32 1) (Bson.int64 1), false) :=
  (msetnx_all_or_nothing (set initialState (Key.uint32 1) (Bson.int64 1))
      [(Key.uint32 1, Bson.int64 2), (Key.uint32 2, Bson.int64 3)]).1
    ⟨(Key.uint32 1, Bson.int64 2), by decide, by decide⟩

/-- C5: on a reachable store with the shutdown flag clear, one purge pass
removes exactly the expiration-index records whose instant is at most `now`
(the index is sorted, so they form its prefix) together with the value-table
entries they point to, leaves every other key's lookup unchanged, and
returns the earliest remaining deadline (the head instant of the remaining
sorted index), or None exactly when the index has been emptied. -/
theorem purge_pass_spec (s : State) (now : Nat) (h : Reachable s)
    (hsd : s.shutdown = false) :
    (purge_expired_keys s now).1.expirations =
      s.expirations.filter (fun y => decide (now < y.1.1)) ∧
    (purge_expired_keys s now).2 =
      (s.expirations.filter (fun y => decide (now < y.1.1))).head?.map
        (fun y => y.1.1) ∧
    (∀ k, (∃ y, y ∈ s.expirations ∧ y.1.1 ≤ now ∧ y.2 = k) →
      imGet (purge_expired_keys s now).1.entries k = none) ∧
    (∀ k, (∀ y, y ∈ s.expirations → y.1.1 ≤ now → y.2 ≠ k) →
      imGet (purge_expired_keys s now).1.entries k = imGet s.entries k) ∧
    (purge_expired_keys s now).1.next_id = s.next_id ∧
    (∀ w, (purge_expired_keys s now).2 = some w →
      ∀ y ∈ (purge_expired_keys s now).1.expirations, w ≤ y.1.1) ∧
    ((purge_expired_keys s now).2 = none ↔
      (purge_expired_keys s now).1.expirations = []) := by
  have hI := reachable_inv h
  obtain ⟨_, C2, _, _, _, C6, C7, C8, C9⟩ :=
    purgeLoop_inv now s.expirations s.entries hI.nodup hI.sorted hI.fwd hI.bwd
  have hred1 : (purge_expired_keys s now).1.entries =
      (purgeLoop s.entries s.expirations now).1 := by
    simp [purge_expired_keys, hsd]
  have hred2 : (purge_expired_keys s now).1.expirations =
      (purgeLoop s.entries s.expirations now).2.1 := by
    simp [purge_expired_keys, hsd]
  have hred3 : (purge_expired_keys s now).2 =
      (purgeLoop s.entries s.expirations now).2.2 := by
    simp [purge_expired_keys, hsd]
  have hred4 : (purge_expired_keys s now).1.next_id = s.next_id := by
    simp [purge_expired_keys, hsd]
  rw [hred1, hred2, hred3, hred4]
  refine ⟨C6, C7, C8, C9, rfl, ?_, ?_⟩
  · intro w hw y hy
    rw [C7] at hw
    rw [C6] at hy
    have hsorted : BtSorted (s.expirations.filter (fun y => decide (now < y.1.1))) :=
      List.Pairwise.sublist (List.filter_sublist _) hI.sorted
    cases hfil : s.expirations.filter (fun y => decide (now < y.1.1)) with
    | nil =>
      rw [hfil] at hy
      simp at hy
    | cons y0 tail =>
      rw [hfil] at hw hy hsorted
      obtain rfl : y0.1.1 = w := by simpa using hw
      have hh := List.pairwise_cons.1 hsorted
      rcases List.mem_cons.1 hy with h1 | h1
      · rw [h1]
      · have hpl := hh.1 y h1
        unfold pairLt at hpl
        omega
  · rw [C7, C6]
    cases s.expirations.filter (fun y => decide (now < y.1.1)) with
    | nil => simp
    | cons y0 tail => simp

/-- C5 witness: purging the one-record reachable store built by setex, well
past its deadline, empties the expiration index. -/
theorem purge_pass_spec_witness :
    (purge_expired_keys (setex initialState (Key.uint32 1) (Bson.int64 7)
        (some 1) 0) 5).1.expirations =
      (setex initialState (Key.uint32 1) (Bson.int64 7) (some 1) 0).expirations.filter
        (fun y => decide (5 < y.1.1)) :=
  (purge_pass_spec (setex initialState (Key.uint32 1) (Bson.int64 7) (some 1) 0) 5
      (Reachable.stepSetex _ (Key.uint32 1) (Bson.int64 7) (some 1) 0 Reachable.init)
      rfl).1

/-- C6: getset on an existing key returns the previous value and replaces
only the stored data — the entry's id and expires_at are preserved, every
other key's lookup is untouched, the expiration index is left byte-for-byte
unchanged (so an existing record is still valid), and no id is consumed;
on an absent key it returns None and its state transition is exactly
`set` (fresh id, no TTL). -/
theorem getset_preserves_meta (s : State) (k : Key) (v : Bson) :
    (∀ e, imGet s.entries k = some e →
      (getset s k v).2 = some e.data ∧
      imGet (getset s k v).1.entries k = some ⟨e.id, v, e.expires_at⟩ ∧
      (∀ k', k' ≠ k → imGet (getset s k v).1.entries k' = imGet s.entries k') ∧
      (getset s k v).1.expirations = s.expirations ∧
      (getset s k v).1.next_id = s.next_id) ∧
    (imGet s.entries k = none →
      (getset s k v).2 = none ∧ (getset s k v).1 = set s k v) := by
  constructor
  · intro e hg
    refine ⟨?_, ?_, ?_, ?_, ?_⟩
    · simp [getset, hg]
    · simp [getset, hg, imGet_imInsert_self]
    · intro k' hk'
      simp only [getset, hg]
      exact imGet_imInsert_ne hk'
    · simp [getset, hg]
    · simp [getset, hg]
  · intro hg
    constructor
    · simp [getset, hg]
    · simp only [getset, hg]
      unfold set
      rw [hg]
      rfl

/-- C6 witness: getset on the TTL-carrying entry built by setex keeps the
expiration index untouched and returns the previous value. -/
theorem getset_preserves_meta_witness :
    (getset (setex initialState (Key.uint32 1) (Bson.int64 7) (some 10) 0)
        (Key.uint32 1) (Bson.int64 9)).1.expirations =
      (setex initialState (Key.uint32 1) (Bson.int64 7) (some 10) 0).expirations :=
  ((getset_preserves_meta (setex initialState (Key.uint32 1) (Bson.int64 7) (some 10) 0)
      (Key.uint32 1) (Bson.int64 9)).1 ⟨0, Bson.int64 7, some 10⟩ (by decide)).2.2.2.1

/-- C7: set followed by get returns the value just written, a second set
overwrites (get returns the second value), and get is a pure table lookup
that never consults expiration: an entry whose instant t has already passed
(t at most now) is still returned as long as it is present. -/
theorem set_get_roundtrip_lazy (s : State) (k : Key) (v v1 v2 : Bson) :
    get (set s k v) k = some v ∧
    get (set (set s k v1) k v2) k = some v2 ∧
    (∀ e t now, imGet s.entries k = some e → e.expires_at = some t → t ≤ now →
      get s k = some e.data) := by
  refine ⟨?_, ?_, ?_⟩
  · simp [get, imGet_set_self]
  · simp [get, imGet_set_self]
  · intro e t now hg _ _
    simp [get, hg]

/-- C7 witness: a value written with a 1-tick TTL is still returned by get
at instant 99, long past its deadline, because get never checks expiry. -/
theorem set_get_roundtrip_lazy_witness :
    get (setex initialState (Key.uint32 1) (Bson.int64 7) (some 1) 0) (Key.uint32 1) =
      some (Bson.int64 7) :=
  (set_get_roundtrip_lazy
      (setex initialState (Key.uint32 1) (Bson.int64 7) (some 1) 0)
      (Key.uint32 1) (Bson.int64 0) (Bson.int64 0) (Bson.int64 0)).2.2
    ⟨0, Bson.int64 7, some 1⟩ 1 99 (by decide) rfl (by decide)

theorem keys_mset (kvs : List (Key × Bson)) :
    ∀ s : State, (∀ kv ∈ kvs, (imGet s.entries kv.1).isSome) →
      (mset s kvs).entries.map Prod.fst = s.entries.map Prod.fst := by
  induction kvs with
  | nil =>
    intro s _
    rfl
  | cons kv rest ih =>
    intro s hkvs
    rw [mset_cons]
    have hkv1 : kv.1 ∈ s.entries.map Prod.fst := by
      have hsome := hkvs kv (List.mem_cons_self _ _)
      by_contra hc
      rw [imGet_eq_none.2 hc] at hsome
      simp at hsome
    have hrest : ∀ kv' ∈ rest, (imGet (set s kv.1 kv.2).entries kv'.1).isSome := by
      intro kv' hm
      by_cases he : kv'.1 = kv.1
      · rw [he, imGet_set_self]
        rfl
      · rw [imGet_set_ne he]
        exact hkvs kv' (List.mem_cons_of_mem _ hm)
    rw [ih (set s kv.1 kv.2) hrest]
    exact keys_imInsert_of_mem hkv1

/-- C8: overwriting an existing key — by set, setex, getset, mset (when
every key of the batch exists) or an in-place counter update — leaves the
whole key sequence of the value table unchanged, position by position, so
cursor(i) still addresses the same key afterwards and returns that key's
current (possibly new) value. -/
theorem overwrite_keeps_positions (s : State) (k : Key) (v : Bson)
    (expire : Option Nat) (now : Nat) (n : Int) :
    (imGet s.entries k ≠ none →
      (set s k v).entries.map Prod.fst = s.entries.map Prod.fst ∧
      (setex s k v expire now).entries.map Prod.fst = s.entries.map Prod.fst ∧
      (getset s k v).1.entries.map Prod.fst = s.entries.map Prod.fst) ∧
    (∀ e c, imGet s.entries k = some e → e.data.as_i64 = some c →
      (incr s k).1.entries.map Prod.fst = s.entries.map Prod.fst ∧
      (incr_by s k n).1.entries.map Prod.fst = s.entries.map Prod.fst ∧
      (decr s k).1.entries.map Prod.fst = s.entries.map Prod.fst ∧
      (decr_by s k n).1.entries.map Prod.fst = s.entries.map Prod.fst) ∧
    (∀ kvs : List (Key × Bson), (∀ kv ∈ kvs, (imGet s.entries kv.1).isSome) →
      (mset s kvs).entries.map Prod.fst = s.entries.map Prod.fst) ∧
    (imGet s.entries k ≠ none → ∀ i,
      ((set s k v).entries.get? i).map Prod.fst =
        (s.entries.get? i).map Prod.fst) ∧
    (imGet s.entries k ≠ none → NodupKeys s.entries → ∀ i k',
      (s.entries.get? i).map Prod.fst = some k' →
      cursor (set s k v) i = get (set s k v) k') := by
  have hkmem : imGet s.entries k ≠ none → k ∈ s.entries.map Prod.fst := by
    intro hne
    by_contra hc
    exact hne (imGet_eq_none.2 hc)
  have hsetkeys : imGet s.entries k ≠ none →
      (set s k v).entries.map Prod.fst = s.entries.map Prod.fst := by
    intro hne
    exact keys_imInsert_of_mem (hkmem hne)
  refine ⟨?_, ?_, ?_, ?_, ?_⟩
  · intro hne
    refine ⟨hsetkeys hne, ?_, ?_⟩
    · cases expire with
      | none => exact keys_imInsert_of_mem (hkmem hne)
      | some dur => exact keys_imInsert_of_mem (hkmem hne)
    · cases hg : imGet s.entries k with
      | none => exact absurd hg hne
      | some entry =>
        simp only [getset, hg]
        exact keys_imInsert_of_mem (hkmem hne)
  · intro e c hg hd
    refine ⟨?_, ?_, ?_, ?_⟩ <;>
      simp [incr, incr_by, decr, decr_by, hg, hd, keys_setData]
  · intro kvs hkvs
    exact keys_mset kvs s hkvs
  · intro hne i
    have hkeys := hsetkeys hne
    rw [← List.get?_map, ← List.get?_map, hkeys]
  · intro hne hnd i k' hk'
    have hkeys := hsetkeys hne
    have hidx : ((set s k v).entries.get? i).map Prod.fst = some k' := by
      rw [← List.get?_map, hkeys, List.get?_map]
      exact hk'
    cases hp : (set s k v).entries.get? i with
    | none => rw [hp] at hidx; exact absurd hidx (by simp)
    | some p =>
      rw [hp] at hidx
      have hpk : p.1 = k' := by simpa using hidx
      have hnd' : NodupKeys (set s k v).entries := nodup_imInsert hnd
      have hmem : p ∈ (set s k v).entries := List.get?_mem hp
      have hlook : imGet (set s k v).entries k' = some p.2 := by
        rw [← hpk]
        exact mem_imGet hnd' hmem
      show ((set s k v).entries.get? i).map (fun q => q.2.data) = _
      rw [hp]
      show some p.2.data = get (set s k v) k'
      rw [show get (set s k v) k' = (imGet (set s k v).entries k').map (fun q => q.data)
        from rfl, hlook]
      rfl

/-- C8 witness: overwriting the sole existing key keeps the key sequence of
the table unchanged. -/
theorem overwrite_keeps_positions_witness :
    (set (set initialState (Key.uint32 1) (Bson.int64 1)) (Key.uint32 1)
        (Bson.int64 2)).entries.map Prod.fst =
      (set initialState (Key.uint32 1) (Bson.int64 1)).entries.map Prod.fst :=
  ((overwrite_keeps_positions (set initialState (Key.uint32 1) (Bson.int64 1))
      (Key.uint32 1) (Bson.int64 2) none 0 0).1 (by decide)).1

/-- C9: deletion is swap-removal, which does not preserve insertion order:
if k sits at position i and i is not the last position (i + 1 < n), then
after del(k) position i holds the formerly-last pair, cursor(i) returns
that pair's value, and a reaper purge pass that evicts k (its single due
record) removes the entry from the table in exactly the same way. -/
theorem del_swap_removal (s : State) (k : Key) (i : Nat)
    (hfind : imFindIdx s.entries k = some i) (hlt : i + 1 < s.entries.length) :
    (del s k).entries.get? i = s.entries.get? (s.entries.length - 1) ∧
    cursor (del s k) i =
      (s.entries.get? (s.entries.length - 1)).map (fun p => p.2.data) ∧
    (∀ now t id, s.expirations = [((t, id), k)] → t ≤ now → s.shutdown = false →
      (purge_expired_keys s now).1.entries = (del s k).entries) := by
  have hdel : (del s k).entries = imRemoveIdx s.entries i := by
    show (imRemove s.entries k).1 = _
    unfold imRemove
    rw [hfind]
  refine ⟨?_, ?_, ?_⟩
  · rw [hdel]
    exact imRemoveIdx_get? hlt
  · show ((del s k).entries.get? i).map (fun p => p.2.data) = _
    rw [hdel, imRemoveIdx_get? hlt]
  · intro now t id hexps hle hsd
    have hloop : (purge_expired_keys s now).1.entries =
        (purgeLoop s.entries s.expirations now).1 := by
      simp [purge_expired_keys, hsd]
    rw [hloop, hexps]
    have hnlt : ¬now < t := Nat.not_lt.2 hle
    have hstep : purgeLoop s.entries [((t, id), k)] now =
        purgeLoop (imRemove s.entries k).1 [] now := by
      simp [purgeLoop, hnlt]
    rw [hstep]
    rfl

/-- C9 witness: in a three-entry table whose first key carries the only
TTL, deleting that first key moves the last entry into position 0, so
cursor 0 returns the formerly-last value; the purge pass at instant 5
removes the entry from the table in exactly the same way. -/
theorem del_swap_removal_witness :
    cursor (del (mset (setex initialState (Key.uint32 1) (Bson.int64 10) (some 1) 0)
        [(Key.uint32 2, Bson.int64 20), (Key.uint32 3, Bson.int64 30)])
        (Key.uint32 1)) 0 = some (Bson.int64 30) ∧
    (purge_expired_keys (mset (setex initialState (Key.uint32 1) (Bson.int64 10)
        (some 1) 0) [(Key.uint32 2, Bson.int64 20), (Key.uint32 3, Bson.int64 30)])
        5).1.entries =
      (del (mset (setex initialState (Key.uint32 1) (Bson.int64 10) (some 1) 0)
        [(Key.uint32 2, Bson.int64 20), (Key.uint32 3, Bson.int64 30)])
        (Key.uint32 1)).entries := by
  constructor
  · have h := (del_swap_removal (mset (setex initialState (Key.uint32 1)
        (Bson.int64 10) (some 1) 0)
        [(Key.uint32 2, Bson.int64 20), (Key.uint32 3, Bson.int64 30)])
        (Key.uint32 1) 0 (by decide) (by decide)).2.1
    rw [h]
    decide
  · exact (del_swap_removal (mset (setex initialState (Key.uint32 1)
        (Bson.int64 10) (some 1) 0)
        [(Key.uint32 2, Bson.int64 20), (Key.uint32 3, Bson.int64 30)])
        (Key.uint32 1) 0 (by decide) (by decide)).2.2 5 1 0 (by decide) (by decide) rfl

end Eiffel
